import Mathlib

/-!
# The `diag` forwarder: HDLC codec, command dispatch, receive loops, peripherals

A shallow embedding of `diag.c` and `peripheral.c`.

* Bytes (`uint8_t`) are natural numbers; a byte buffer is a `List Nat`.
* A pointer into a buffer is an offset (`Nat`) into the list holding the buffer.
* `size_t` is 64 bits wide: a value converted to `size_t` is reduced modulo `2 ^ 64`.
* `malloc` is taken to succeed, so the `err(1, ...)` exits are not modelled.
* A step without defined behaviour (a read outside the buffer, a pointer to a record that
  is not there) makes the result `none`.
* `diag_cmd_key`, `diag_cmd_dispatch` and `diag_sock_recv_msg` work on the bytes of a
  message alone and are defined where every byte read lies in the message; there they
  agree with `diag_cmd_key_at`, `diag_cmd_dispatch_at` and `diag_sock_recv_at`, which work
  on the memory as the program does and are what the receive loop runs.
* The calls into libudev, `open`, `close`, `fcntl` and the reactor (`watch_*`) are effects
  on explicit state: what was asked is recorded, what they return is a parameter.
* The headers `crc_ccitt.h`, `diag.h`, `diag_cntl.h`, `list.h`, `mbuf.h` and `peripheral.h`
  are not among the sources.  What `diag.c` uses from them is either a parameter
  (`crc_ccitt_byte`, `DIAG_CMD_SUBSYS_DISPATCH`, `DIAG_FEATURE_APPS_HDLC_ENCODE`) or is
  modelled from the specification (`CRC_16_L_SEED`, `list_add`).
-/

namespace Diag

/-! ## Machine integers -/

/-- Conversion of a (signed) integer to `size_t`: reduction modulo `2 ^ 64`. -/
def to_size_t (x : Int) : Nat := (x % 18446744073709551616).toNat

/-- Conversion of an `int` to `uint8_t`: reduction modulo `2 ^ 8`. -/
def to_uint8 (x : Int) : Nat := (x % 256).toNat

/-! ## Missing header material -/

/-- Modelled from the spec: the macro `CRC_16_L_SEED` of `crc_ccitt.h`, which is not among
the sources; the specification gives the CRC seed as `0xFFFF`. -/
def CRC_16_L_SEED : Nat := 0xFFFF

/-- Modelled from the spec: `list_add` of `list.h`, which is not among the sources; the
specification speaks of enqueuing onto an output queue, so the item goes to the tail. -/
def list_add {α : Type} (list : List α) (item : α) : List α := list ++ [item]

/-! ## `hdlc_encode` -/

/-- The `while (s < src + slen)` loop of `hdlc_encode`.  The first list is what is left of
the source from `s` on, `crc` is the running `uint16_t` checksum and `d` the bytes written
to `dst` so far.  `crc_ccitt_byte` comes from `crc_ccitt.h`; its result is stored in a
`uint16_t`. -/
def hdlc_encode_payload (crc_ccitt_byte : Nat → Nat → Nat) :
    List Nat → Nat → List Nat → Nat × List Nat
  | [], crc, d => (crc, d)
  | s :: src, crc, d =>
    let crc := crc_ccitt_byte crc s % 65536
    if s = 0x7d ∨ s = 0x7e then
      hdlc_encode_payload crc_ccitt_byte src crc (d ++ [0x7d, s ^^^ 0x20])
    else
      hdlc_encode_payload crc_ccitt_byte src crc (d ++ [s])

/-- The `for (i = 0; i < 2; i++)` loop of `hdlc_encode` over the bytes of `tmp`. -/
def hdlc_encode_tmp : List Nat → List Nat → List Nat
  | [], d => d
  | s :: tmp, d =>
    if s = 0x7d ∨ s = 0x7e then
      hdlc_encode_tmp tmp (d ++ [0x7d, s ^^^ 0x20])
    else
      hdlc_encode_tmp tmp (d ++ [s])

/-- The function `hdlc_encode(src, slen, &dlen)`: returns the bytes written to `dst` and
`*dlen = d - dst`.  `~crc` is computed on the promoted `int`; `& 0xff` and the store into
a `uint8_t` keep the low eight bits. -/
def hdlc_encode (crc_ccitt_byte : Nat → Nat → Nat) (src : List Nat) : List Nat × Nat :=
  let (crc, d) := hdlc_encode_payload crc_ccitt_byte src CRC_16_L_SEED []
  let tmp0 := to_uint8 ((~~~ (crc : Int)) % 256)
  let tmp1 := to_uint8 ((~~~ (crc : Int)) >>> (8 : Nat))
  let d := hdlc_encode_tmp [tmp0, tmp1] d
  let d := d ++ [0x7e]
  (d, d.length)

/-! ## `hdlc_decode_one` -/

/-- The `for (;;)` loop of `hdlc_decode_one`.  The first argument is `*buf + *len - src`,
the number of bytes left before the end of the supplied input, so that `0` is the case
`src >= *buf + *len` (return `NULL`).  `mem` is the memory holding the buffer, unescaped
in place; `src` and `dst` are offsets into it.  The result is the memory after the loop
and, when the loop was left by `break`, the final `src` and `dst`. -/
def hdlc_decode_scan : Nat → List Nat → Nat → Nat → Nat → List Nat × Option (Nat × Nat)
  | 0, mem, _, _, _ => (mem, none)
  | n + 1, mem, src, dst, escape =>
    let ch := mem.getD src 0
    let src := src + 1
    if ch = 0x7e then
      (mem, some (src, dst))
    else if ch = 0x7d then
      hdlc_decode_scan n mem src dst 0x20
    else
      hdlc_decode_scan n (mem.set dst (ch ^^^ escape)) src (dst + 1) 0

/-- State after a call of `hdlc_decode_one`: the memory, the caller's cursor `*buf` and
remaining length `*len`, and the returned pointer with `*msglen` (`none` for `NULL`). -/
structure decode_result where
  mem : List Nat
  buf : Nat
  len : Nat
  ret : Option (Nat × Nat)
deriving DecidableEq

/-- The function `hdlc_decode_one(&buf, &len, &msglen)` on memory `mem`. -/
def hdlc_decode_one (mem : List Nat) (buf len : Nat) : decode_result :=
  let msg := buf
  match hdlc_decode_scan len mem buf buf 0 with
  | (mem, none) => { mem := mem, buf := buf, len := len, ret := none }
  | (mem, some (src, dst)) =>
    { mem := mem
      len := to_size_t ((len : Int) - ((src : Int) - (msg : Int)))
      buf := src
      ret := some (msg, to_size_t (((dst : Int) - 1 - 1) - (msg : Int))) }

/-- The bytes `msg[0 .. msglen)` of the returned message, read from the memory after the
call. -/
def decode_result.message (r : decode_result) : Option (List Nat) :=
  r.ret.map fun (msg, msglen) => (r.mem.drop msg).take msglen

/-- How many raw bytes the call consumed: the advance of the cursor `*buf`. -/
def decode_result.consumed (r : decode_result) (buf : Nat) : Nat := r.buf - buf

/-! ## The wire grammar of the specification -/

/-- The rule `stuffed(b)` of the wire grammar: `b` if `b` is not in `{0x7D, 0x7E}`,
otherwise `0x7D (b XOR 0x20)`. -/
def spec_stuffed_byte (b : Nat) : List Nat :=
  if b ≠ 0x7D ∧ b ≠ 0x7E then [b] else [0x7D, b ^^^ 0x20]

/-- The rule `stuffed(payload)`: every byte of the payload stuffed on its own. -/
def spec_stuffed : List Nat → List Nat
  | [] => []
  | b :: p => spec_stuffed_byte b ++ spec_stuffed p

/-- The 16-bit CRC of the specification: `crc_ccitt_byte` folded over the unescaped bytes,
from the seed `0xFFFF`, every intermediate value kept to 16 bits. -/
def spec_crc (crc_ccitt_byte : Nat → Nat → Nat) (p : List Nat) : Nat :=
  p.foldl (fun c b => crc_ccitt_byte c b % 65536) 0xFFFF

/-- Low byte of the one's complement of the CRC: `(NOT c) mod 256`. -/
def spec_crc_lo (c : Nat) : Nat := ((~~~ (c : Int)) % 256).toNat

/-- High byte of the one's complement of the CRC: `((NOT c) mod 65536) div 256`. -/
def spec_crc_hi (c : Nat) : Nat := (((~~~ (c : Int)) % 65536) / 256).toNat

/-- The rule `frame := stuffed(payload) stuffed(crc_lo) stuffed(crc_hi) 0x7E`. -/
def spec_frame (crc_ccitt_byte : Nat → Nat → Nat) (p : List Nat) : List Nat :=
  spec_stuffed p ++ spec_stuffed_byte (spec_crc_lo (spec_crc crc_ccitt_byte p))
    ++ spec_stuffed_byte (spec_crc_hi (spec_crc crc_ccitt_byte p)) ++ [0x7E]

/-- A frame with an arbitrary two-byte trailer in place of the checksum. -/
def spec_frame_with (p : List Nat) (c0 c1 : Nat) : List Nat :=
  spec_stuffed p ++ spec_stuffed_byte c0 ++ spec_stuffed_byte c1 ++ [0x7E]

/-- The bytes the decoder writes for an input segment free of `0x7E`, started with the
pending escape value `escape`. -/
def unescape : Nat → List Nat → List Nat
  | _, [] => []
  | escape, ch :: r =>
    if ch = 0x7d then unescape 0x20 r else (ch ^^^ escape) :: unescape 0 r

/-- The input window `[buf, buf + len)` of a call of `hdlc_decode_one`. -/
def window (mem : List Nat) (buf len : Nat) : List Nat := (mem.drop buf).take len

/-! ## Queues and dispatch -/

/-- What `diag.c` takes from headers that are not among the sources: the CRC step of
`crc_ccitt.h`, the opcode of `diag.h` and the feature bit of `diag_cntl.h`. -/
structure headers where
  crc_ccitt_byte : Nat → Nat → Nat
  DIAG_CMD_SUBSYS_DISPATCH : Nat
  DIAG_FEATURE_APPS_HDLC_ENCODE : Nat

/-- The constant `ENOENT` of `errno.h`. -/
def ENOENT : Int := 2

/-- The record `struct peripheral`, with the fields the sources use.  A queue is the list
of its buffers, head first. -/
structure peripheral where
  name : String
  features : Nat
  dataq : List (List Nat)
  cntlq : List (List Nat)
  data_fd : Int
  cntl_fd : Int
  cmd_fd : Int
deriving DecidableEq

/-- The record `struct diag_cmd`: a key range and the peripheral serving it.  The pointer
`dc->peripheral` is the position of the peripheral in the store of peripherals. -/
structure diag_cmd where
  first : Nat
  last : Nat
  peripheral : Nat
deriving DecidableEq

/-- The record `struct diag_client`. -/
structure diag_client where
  name : String
  fd : Int
  outq : List (List Nat)
deriving DecidableEq

/-- The global state: the lists `diag_cmds` and `diag_clients` of `diag.c` and the
peripheral records. -/
structure world where
  diag_cmds : List diag_cmd
  diag_clients : List diag_client
  peripherals : List peripheral
deriving DecidableEq

/-- The function `queue_push(queue, msg, msglen)`: a buffer holding a copy of the `msglen`
bytes at `msg` is added to the queue. -/
def queue_push (queue : List (List Nat)) (msg : List Nat) : List (List Nat) :=
  list_add queue msg

/-- The function `hdlc_enqueue(queue, msg, msglen)`: the message is encoded and a buffer
holding a copy of the `outlen` encoded bytes is added to the queue. -/
def hdlc_enqueue (crc_ccitt_byte : Nat → Nat → Nat) (queue : List (List Nat))
    (msg : List Nat) : List (List Nat) :=
  let (outbuf, outlen) := hdlc_encode crc_ccitt_byte msg
  list_add queue (outbuf.take outlen)

/-- The routing key of `diag_cmd_dispatch` as a function of the bytes of the message
alone: the value the key expression has when every `ptr[i]` it reads lies inside the
message, and `none` when it reads at or beyond the length of the message.  There the
program reads the bytes that follow the message in the buffer; `diag_cmd_key_at` is the
expression on the memory.  The operands are promoted to `int`; the bits of the result are
kept as an `unsigned int`. -/
def diag_cmd_key (DIAG_CMD_SUBSYS_DISPATCH : Nat) (ptr : List Nat) : Option Nat := do
  let p0 ← ptr[0]?
  if p0 = DIAG_CMD_SUBSYS_DISPATCH then
    let p1 ← ptr[1]?
    let p3 ← ptr[3]?
    let p2 ← ptr[2]?
    pure ((p0 <<< 24 ||| p1 <<< 16 ||| p3 <<< 8 ||| p2) % 4294967296)
  else
    pure ((0xff <<< 24 ||| 0xff <<< 16 ||| p0) % 4294967296)

/-- The `list_for_each(item, &diag_cmds)` loop of `diag_cmd_dispatch`: the routes still to
visit, the peripheral records and the counter `handled`.  A route whose peripheral is not
in the store is a dangling pointer: `none`. -/
def diag_cmd_dispatch_loop (H : headers) (ptr : List Nat) (key : Nat) :
    List diag_cmd → List peripheral → Int → Option (List peripheral × Int)
  | [], ps, handled => some (ps, handled)
  | dc :: rest, ps, handled =>
    if key < dc.first ∨ key > dc.last then
      diag_cmd_dispatch_loop H ptr key rest ps handled
    else
      match ps[dc.peripheral]? with
      | none => none
      | some p =>
        let dataq :=
          if p.features &&& H.DIAG_FEATURE_APPS_HDLC_ENCODE ≠ 0 then
            queue_push p.dataq ptr
          else
            hdlc_enqueue H.crc_ccitt_byte p.dataq ptr
        diag_cmd_dispatch_loop H ptr key rest
          (ps.set dc.peripheral { p with dataq := dataq }) (handled + 1)

/-- The function `diag_cmd_dispatch(ptr, len)` on the message `ptr[0 .. len)`, for a
message that holds every byte its key is read from: the new global state and the returned
`int`.  The buffer `outbuf` encoded at the start is only freed at the end.
`diag_cmd_dispatch_at` is the function on the memory, for every message. -/
def diag_cmd_dispatch (H : headers) (w : world) (ptr : List Nat) : Option (world × Int) := do
  let _outbuf := hdlc_encode H.crc_ccitt_byte ptr
  let key ← diag_cmd_key H.DIAG_CMD_SUBSYS_DISPATCH ptr
  let (ps, handled) ← diag_cmd_dispatch_loop H ptr key w.diag_cmds w.peripherals 0
  pure ({ w with peripherals := ps }, if handled ≠ 0 then 0 else -ENOENT)

/-! ## Receiving: `diag_sock_recv` and `diag_data_recv` -/

/-- Reading the `msglen` bytes at offset `msg` of the memory `mem`, as `memcpy` and the
loop of `hdlc_encode` do.  A range that leaves the memory has no defined contents. -/
def read_bytes (mem : List Nat) (msg msglen : Nat) : Option (List Nat) :=
  if msg + msglen ≤ mem.length then some ((mem.drop msg).take msglen) else none

/-- The key expression at the start of `diag_cmd_dispatch(ptr, len)` as the program runs
it: `ptr` is an offset into the memory `mem` that holds the buffer, and `len` is not
consulted.  The result is the key and the indices `i` of the bytes `ptr[i]` the expression
reads.  `none` is a read outside the memory.  The operands are promoted to `int`; the bits
of the result are kept as an `unsigned int`. -/
def diag_cmd_key_at (DIAG_CMD_SUBSYS_DISPATCH : Nat) (mem : List Nat) (ptr : Nat) :
    Option (Nat × List Nat) := do
  let p0 ← mem[ptr + 0]?
  if p0 = DIAG_CMD_SUBSYS_DISPATCH then
    let p1 ← mem[ptr + 1]?
    let p3 ← mem[ptr + 3]?
    let p2 ← mem[ptr + 2]?
    pure ((p0 <<< 24 ||| p1 <<< 16 ||| p3 <<< 8 ||| p2) % 4294967296, [0, 1, 3, 2])
  else
    pure ((0xff <<< 24 ||| 0xff <<< 16 ||| p0) % 4294967296, [0])

/-- The function `diag_cmd_dispatch(ptr, len)` with `ptr` an offset into the memory `mem`:
`hdlc_encode` reads the `len` bytes of the message, the key is read from the memory at
`ptr` whatever `len` is, and the loop over the routes forwards the message. -/
def diag_cmd_dispatch_at (H : headers) (w : world) (mem : List Nat) (ptr len : Nat) :
    Option (world × Int) := do
  let msg ← read_bytes mem ptr len
  let _outbuf := hdlc_encode H.crc_ccitt_byte msg
  let (key, _) ← diag_cmd_key_at H.DIAG_CMD_SUBSYS_DISPATCH mem ptr
  let (ps, handled) ← diag_cmd_dispatch_loop H msg key w.diag_cmds w.peripherals 0
  pure ({ w with peripherals := ps }, if handled ≠ 0 then 0 else -ENOENT)

/-- The function `diag_rsp_bad_command(client, msg, len)`: the buffer `0x13` followed by
the message is encoded onto the output queue of the client.  The pointer `client` is the
position of the client in `diag_clients`. -/
def diag_rsp_bad_command (H : headers) (w : world) (client : Nat) (msg : List Nat) :
    Option world :=
  match w.diag_clients[client]? with
  | none => none
  | some c =>
    let buf := 0x13 :: msg
    some { w with
      diag_clients :=
        w.diag_clients.set client { c with outq := hdlc_enqueue H.crc_ccitt_byte c.outq buf } }

/-- The body of the loop of `diag_sock_recv` for one decoded message that holds every
byte its key is read from: dispatch, and the bad-command response when dispatch returns a
negative value. -/
def diag_sock_recv_msg (H : headers) (client : Nat) (w : world) (msg : List Nat) :
    Option world := do
  let (w, ret) ← diag_cmd_dispatch H w msg
  if ret < 0 then diag_rsp_bad_command H w client msg else pure w

/-- The body of the loop of `diag_sock_recv` after a successful decode, on the memory:
`diag_cmd_dispatch(msg, msglen)`, and `diag_rsp_bad_command(client, msg, msglen)` when it
returns a negative value. -/
def diag_sock_recv_at (H : headers) (client : Nat) (w : world) (mem : List Nat)
    (msg msglen : Nat) : Option world := do
  let (w, ret) ← diag_cmd_dispatch_at H w mem msg msglen
  if ret < 0 then do
    let m ← read_bytes mem msg msglen
    diag_rsp_bad_command H w client m
  else pure w

/-- The `for (;;)` loop of `diag_sock_recv` over the buffer `mem` with cursor `ptr` and
remaining length `len`.  The first argument bounds the number of iterations; `none` is an
exhausted bound or an undefined step. -/
def diag_sock_recv_loop (H : headers) (client : Nat) :
    Nat → world → List Nat → Nat → Nat → Option world
  | 0, _, _, _, _ => none
  | fuel + 1, w, mem, ptr, len =>
    let r := hdlc_decode_one mem ptr len
    match r.ret with
    | none => some w
    | some (msg, msglen) => do
      let w ← diag_sock_recv_at H client w r.mem msg msglen
      diag_sock_recv_loop H client fuel w r.mem r.buf r.len

/-- The function `diag_sock_recv(fd, client)`; `buf` is the buffer after `read` and `n`
the value `read` returned.  The result is the new state and the returned value. -/
def diag_sock_recv (H : headers) (client : Nat) (w : world) (buf : List Nat) (n : Int) :
    Option (world × Int) :=
  if n < 0 then some (w, n)
  else (diag_sock_recv_loop H client (n.toNat + 1) w buf 0 n.toNat).map fun w => (w, 0)

/-- The `list_for_each(item, &diag_clients)` loop of `diag_data_recv`: every client gets a
buffer with a copy of the `msglen` bytes at `msg`. -/
def diag_data_recv_push (mem : List Nat) (msg msglen : Nat) :
    List diag_client → Option (List diag_client)
  | [] => some []
  | client :: rest => do
    let m ← read_bytes mem msg msglen
    let rest ← diag_data_recv_push mem msg msglen rest
    pure ({ client with outq := queue_push client.outq m } :: rest)

/-- The inner `for (;;)` loop of `diag_data_recv` for the peripheral at position
`peripheral`, over the buffer `mem` with cursor `ptr` and remaining length `len`.  The
first argument bounds the number of iterations; `none` is an exhausted bound or an
undefined step. -/
def diag_data_recv_loop (H : headers) (peripheral : Nat) :
    Nat → world → List Nat → Nat → Nat → Option world
  | 0, _, _, _, _ => none
  | fuel + 1, w, mem, ptr, len =>
    match w.peripherals[peripheral]? with
    | none => none
    | some p =>
      if p.features &&& H.DIAG_FEATURE_APPS_HDLC_ENCODE ≠ 0 then do
        let clients ← diag_data_recv_push mem ptr len w.diag_clients
        pure { w with diag_clients := clients }
      else
        let r := hdlc_decode_one mem ptr len
        match r.ret with
        | none => some w
        | some (msg, msglen) => do
          let clients ← diag_data_recv_push r.mem msg msglen w.diag_clients
          diag_data_recv_loop H peripheral fuel { w with diag_clients := clients }
            r.mem r.buf r.len

/-- One round of the outer loop of `diag_data_recv(fd, peripheral)` after a successful
`read`: `buf` is the buffer after `read` and `n` the number of bytes read. -/
def diag_data_recv_chunk (H : headers) (peripheral : Nat) (w : world) (buf : List Nat)
    (n : Nat) : Option world :=
  diag_data_recv_loop H peripheral (n + 1) w buf 0 n

/-! ## Vocabulary for the decoding claims -/

/-- The successive successful calls of `hdlc_decode_one` that a receive loop makes over a
buffer, each with the state it leaves, up to the first call that returns `NULL`.  `none`
is an exhausted bound on the number of calls. -/
def decode_calls : Nat → List Nat → Nat → Nat → Option (List decode_result)
  | 0, _, _, _ => none
  | fuel + 1, mem, ptr, len =>
    let r := hdlc_decode_one mem ptr len
    match r.ret with
    | none => some []
    | some _ => (decode_calls fuel r.mem r.buf r.len).map fun rs => r :: rs

/-- The bytes of the message returned by a call, read from the memory the call left. -/
def decode_result.read (r : decode_result) : Option (List Nat) :=
  match r.ret with
  | none => none
  | some (msg, msglen) => read_bytes r.mem msg msglen

/-- The delimiter-terminated segments of a chunk, each with its `0x7E`; `acc` holds the
bytes of the segment under way.  The bytes after the last `0x7E` belong to no segment. -/
def frames_from : List Nat → List Nat → List (List Nat)
  | _, [] => []
  | acc, b :: rest =>
    if b = 0x7E then (acc ++ [b]) :: frames_from [] rest else frames_from (acc ++ [b]) rest

/-- The delimiter-terminated segments of a chunk. -/
def frames (chunk : List Nat) : List (List Nat) := frames_from [] chunk

/-- The offset of the `k`-th segment in its chunk. -/
def frame_offset (chunk : List Nat) (k : Nat) : Nat := ((frames chunk).take k).flatten.length

/-- The state in which every client has the buffers `msgs` added to its output queue. -/
def world.broadcast (w : world) (msgs : List (List Nat)) : world :=
  { w with diag_clients := w.diag_clients.map fun c => { c with outq := c.outq ++ msgs } }

/-! ## `peripheral.c`: devnodes and peripherals -/

set_option linter.dupNamespace false in
/-- The record `struct devnode`: the path of the device node, the channel name and the
name of the remote processor. -/
structure devnode where
  devnode : String
  name : String
  rproc : String
deriving DecidableEq

/-- Modelled from the spec: `list_del` of `list.h`, which is not among the sources; the
item is taken out of its list. -/
def list_del {α : Type} [DecidableEq α] (list : List α) (item : α) : List α :=
  list.erase item

/-- The function `devnode_get(devnode)` over the list `devnodes`: the first node with
that path. -/
def devnode_get : List devnode → String → Option devnode
  | [], _ => none
  | node :: rest, devnode =>
    if node.devnode = devnode then some node else devnode_get rest devnode

/-- The function `devnode_open(rproc, name)` over the list `devnodes`; `sys_open` stands
for `open(path, O_RDWR)`, which yields a descriptor or a negative value. -/
def devnode_open (sys_open : String → Int) : List devnode → String → String → Int
  | [], _, _ => -1
  | node :: rest, rproc, name =>
    if node.rproc = rproc ∧ node.name = name then sys_open node.devnode
    else devnode_open sys_open rest rproc name

/-- The function `devnode_add(devnode, name, rproc)` over the list `devnodes`. -/
def devnode_add (devnodes : List devnode) (devnode name rproc : String) : List Diag.devnode :=
  match devnode_get devnodes devnode with
  | some _ => devnodes
  | none => list_add devnodes { devnode := devnode, name := name, rproc := rproc }

/-- The function `devnode_remove(devnode)` over the list `devnodes`. -/
def devnode_remove (devnodes : List devnode) (devnode : String) : List Diag.devnode :=
  match devnode_get devnodes devnode with
  | none => devnodes
  | some node => list_del devnodes node

/-- What the reactor was asked to watch: `watch_add_writeq(fd, queue)` with the queue of
the peripheral at position `owner` (`data = true` for `dataq`, `false` for `cntlq`), and
`watch_add_readfd(fd, cb, peripheral)` (`data = true` for `diag_data_recv`, `false` for
`diag_cntl_recv`). -/
inductive watch where
  | writeq (fd : Int) (owner : Nat) (data : Bool)
  | readfd (fd : Int) (owner : Nat) (data : Bool)
deriving DecidableEq

/-- The state `peripheral.c` works on: its lists `devnodes` and `peripherals`, the timers
asked of the reactor by `watch_add_timer` (peripheral and delay in milliseconds), the
watches asked of the reactor, the descriptors passed to `close` and those made
non-blocking. -/
structure periph_state where
  devnodes : List devnode
  peripherals : List peripheral
  timers : List (Nat × Nat)
  watches : List watch
  closed : List Int
  nonblock : List Int
deriving DecidableEq

/-- The state at start-up: everything empty. -/
def periph_state.init : periph_state :=
  { devnodes := [], peripherals := [], timers := [], watches := [], closed := [],
    nonblock := [] }

/-- The search loop at the start of `peripheral_create`: is there a record with that
name. -/
def peripheral_find : List peripheral → String → Bool
  | [], _ => false
  | p :: rest, name => if p.name = name then true else peripheral_find rest name

/-- The function `peripheral_create(name)`.  The new record is zeroed, named, given the
handles `-1`, added to `peripherals`, and `peripheral_open` is scheduled for it after
1000 ms.  The function always returns `0`. -/
def peripheral_create (st : periph_state) (name : String) : periph_state :=
  if peripheral_find st.peripherals name then st
  else
    { st with
      peripherals := list_add st.peripherals
        { name := name, features := 0, dataq := [], cntlq := [], data_fd := -1,
          cntl_fd := -1, cmd_fd := -1 }
      timers := list_add st.timers (st.peripherals.length, 1000) }

/-- The function `peripheral_open(peripheral)` for the peripheral at position `idx`;
`none` when there is no such record. -/
def peripheral_open (sys_open : String → Int) (st : periph_state) (idx : Nat) :
    Option periph_state :=
  match st.peripherals[idx]? with
  | none => none
  | some p =>
    let rproc := p.name
    let fd := devnode_open sys_open st.devnodes rproc "DIAG"
    let fd := if fd < 0 then devnode_open sys_open st.devnodes rproc "APPS_RIVA_DATA" else fd
    if fd < 0 then some st
    else
      let p := { p with data_fd := fd }
      let fd := devnode_open sys_open st.devnodes rproc "DIAG_CNTL"
      let fd := if fd < 0 then devnode_open sys_open st.devnodes rproc "APPS_RIVA_CTRL" else fd
      if fd < 0 then
        some { st with
          closed := st.closed ++ [p.data_fd]
          peripherals := st.peripherals.set idx { p with data_fd := -1 } }
      else
        let p := { p with cntl_fd := fd }
        let fd := devnode_open sys_open st.devnodes rproc "DIAG_CMD"
        let p := if fd ≥ 0 then { p with cmd_fd := fd } else p
        some { st with
          peripherals := st.peripherals.set idx p
          nonblock := st.nonblock ++ [p.data_fd]
          watches := st.watches ++
            [watch.writeq p.cntl_fd idx false, watch.writeq p.data_fd idx true,
             watch.readfd p.cntl_fd idx false, watch.readfd p.data_fd idx true] }

/-- A device as `peripheral_udev_update` sees it: the action, the device node, the value
of the attribute `name`, and the values of the attribute `rpmsg_name` of its ancestors,
nearest first; `none` is the `NULL` of a missing value. -/
structure udev_device where
  action : String
  devnode : Option String
  name : Option String
  rpmsg_names : List (Option String)
deriving DecidableEq

/-- The function `peripheral_udev_get_remoteproc(dev)`: the attribute `rpmsg_name` of the
nearest ancestor that has one. -/
def peripheral_udev_get_remoteproc : List (Option String) → Option String
  | [] => none
  | some p :: _ => some p
  | none :: ancestors => peripheral_udev_get_remoteproc ancestors

/-- The function `peripheral_udev_update(fd, mon)`; `dev` is what
`udev_monitor_receive_device` returned.  The function always returns `0`. -/
def peripheral_udev_update (st : periph_state) (dev : Option udev_device) : periph_state :=
  match dev with
  | none => st
  | some dev =>
    match dev.devnode with
    | none => st
    | some devnode =>
      if dev.action = "add" then
        match dev.name, peripheral_udev_get_remoteproc dev.rpmsg_names with
        | some name, some rproc =>
          peripheral_create { st with devnodes := devnode_add st.devnodes devnode name rproc }
            rproc
        | _, _ => st
      else if dev.action = "remove" then
        { st with devnodes := devnode_remove st.devnodes devnode }
      else st

/-- One call of `devnode_add` or `devnode_remove`. -/
inductive devnode_op where
  | add (devnode name rproc : String)
  | remove (devnode : String)

/-- The list `devnodes` after a sequence of calls, starting from `devnodes`. -/
def devnode_run : List devnode_op → List devnode → List devnode
  | [], devnodes => devnodes
  | devnode_op.add d n r :: ops, devnodes => devnode_run ops (devnode_add devnodes d n r)
  | devnode_op.remove d :: ops, devnodes => devnode_run ops (devnode_remove devnodes d)

/-- The two-alias lookup of `peripheral_open`: the primary channel name, then the fallback
when the primary gave a negative value. -/
def devnode_open_alias (sys_open : String → Int) (devnodes : List devnode)
    (rproc primary fallback : String) : Int :=
  let fd := devnode_open sys_open devnodes rproc primary
  if fd < 0 then devnode_open sys_open devnodes rproc fallback else fd

/-- Sample directory: data and command channels of `modem`, data and control of `adsp`. -/
def sample_devnodes : List devnode :=
  [⟨"/dev/rpmsg0", "DIAG", "modem"⟩, ⟨"/dev/rpmsg1", "DIAG_CMD", "modem"⟩,
   ⟨"/dev/rpmsg2", "APPS_RIVA_DATA", "adsp"⟩, ⟨"/dev/rpmsg3", "DIAG_CNTL", "adsp"⟩]

/-- Sample `open`: the four device nodes of the sample directory open, nothing else. -/
def sample_open (path : String) : Int :=
  if path = "/dev/rpmsg0" then 10
  else if path = "/dev/rpmsg1" then 11
  else if path = "/dev/rpmsg2" then 12
  else if path = "/dev/rpmsg3" then 13
  else -1

/-- Sample state of `peripheral.c`: the sample directory and two created peripherals. -/
def sample_periph_state : periph_state :=
  { devnodes := sample_devnodes
    peripherals := [⟨"modem", 0, [], [], -1, -1, -1⟩, ⟨"adsp", 0, [], [], -1, -1, -1⟩]
    timers := [(0, 1000), (1, 1000)]
    watches := []
    closed := []
    nonblock := [] }

/-- What the loop of `diag_sock_recv` does with the result of one successful call of
`hdlc_decode_one`: handle the returned message on the memory the call left. -/
def diag_sock_recv_step (H : headers) (client : Nat) (w : world) (r : decode_result) :
    Option world :=
  match r.ret with
  | none => none
  | some (msg, msglen) => diag_sock_recv_at H client w r.mem msg msglen

/-- What the non-self-framing branch of the loop of `diag_data_recv` does with the result
of one successful call of `hdlc_decode_one`: push the message to every client. -/
def diag_data_recv_step (w : world) (r : decode_result) : Option world :=
  match r.ret with
  | none => none
  | some (msg, msglen) =>
    (diag_data_recv_push r.mem msg msglen w.diag_clients).map fun clients =>
      { w with diag_clients := clients }

/-- The messages returned by a sequence of calls, in order, when each can be read. -/
def decode_messages : List decode_result → Option (List (List Nat))
  | [] => some []
  | r :: rs =>
    match r.read, decode_messages rs with
    | some m, some ms => some (m :: ms)
    | _, _ => none

/-! ## Vocabulary for the routing claims -/

/-- The inclusive range of a route contains the key. -/
def diag_cmd.covers (dc : diag_cmd) (key : Nat) : Bool :=
  decide (dc.first ≤ key) && decide (key ≤ dc.last)

/-- Number of registered routes whose range contains the key. -/
def match_count (key : Nat) (cmds : List diag_cmd) : Nat :=
  (cmds.filter fun dc => dc.covers key).length

/-- Number of registered routes of peripheral `i` whose range contains the key. -/
def owned_count (key : Nat) (cmds : List diag_cmd) (i : Nat) : Nat :=
  (cmds.filter fun dc => dc.covers key && decide (dc.peripheral = i)).length

/-- The peripheral has the self-framing feature bit set. -/
def peripheral.self_framing (H : headers) (p : peripheral) : Bool :=
  decide (p.features &&& H.DIAG_FEATURE_APPS_HDLC_ENCODE ≠ 0)

/-- The buffer that `diag_cmd_dispatch` is to enqueue for peripheral `p`: the message
itself for a self-framing peripheral, the encoded message otherwise. -/
def forwarded (H : headers) (p : peripheral) (ptr : List Nat) : List Nat :=
  if p.self_framing H then ptr else (hdlc_encode H.crc_ccitt_byte ptr).1

/-- The record of a peripheral after `k` buffers `buf` were added to its data queue. -/
def peripheral.deliver (k : Nat) (buf : List Nat) (p : peripheral) : peripheral :=
  { p with dataq := p.dataq ++ List.replicate k buf }

/-! ## Sample data -/

/-- Sample header material: a toy CRC step, opcode `0x4B` and feature bit `0x40`. -/
def sample_headers : headers :=
  { crc_ccitt_byte := fun crc c => crc * 31 + c
    DIAG_CMD_SUBSYS_DISPATCH := 0x4B
    DIAG_FEATURE_APPS_HDLC_ENCODE := 0x40 }

/-- Sample header material whose dispatch opcode is `0`, so that small keys occur. -/
def sample_headers_zero : headers :=
  { crc_ccitt_byte := fun crc c => crc * 31 + c
    DIAG_CMD_SUBSYS_DISPATCH := 0
    DIAG_FEATURE_APPS_HDLC_ENCODE := 0x40 }

/-- Sample state: the overlapping routes `[0x00000000, 0x000000FF]` and
`[0x00000080, 0x000001FF]` on two peripherals, the second one self-framing, a third
peripheral without a route and one client. -/
def sample_world : world :=
  { diag_cmds := [⟨0x00000000, 0x000000FF, 0⟩, ⟨0x00000080, 0x000001FF, 1⟩]
    diag_clients := [⟨"QXDM", 3, [[1, 2]]⟩]
    peripherals :=
      [⟨"modem", 0, [], [], 4, 5, -1⟩, ⟨"adsp", 0x40, [[9]], [], 6, 7, 8⟩,
       ⟨"wcnss", 0, [[7]], [], 9, 10, -1⟩] }

/-- Sample state with one route for the keys of the subsystem-dispatch opcode `0x4B`, on
a peripheral that is not self-framing, and one client. -/
def sample_world_subsys : world :=
  { diag_cmds := [⟨0x4B000000, 0x4BFFFFFF, 0⟩]
    diag_clients := [⟨"QXDM", 3, []⟩]
    peripherals := [⟨"modem", 0, [], [], 4, 5, -1⟩] }

/-! ## Lemmas on the encoder -/

theorem spec_stuffed_append (p q : List Nat) :
    spec_stuffed (p ++ q) = spec_stuffed p ++ spec_stuffed q := by
  induction p with
  | nil => rfl
  | cons b p ih => simp [spec_stuffed, ih]

theorem hdlc_encode_payload_eq (f : Nat → Nat → Nat) (src : List Nat) (crc : Nat)
    (d : List Nat) :
    hdlc_encode_payload f src crc d
      = (src.foldl (fun c b => f c b % 65536) crc, d ++ spec_stuffed src) := by
  induction src generalizing crc d with
  | nil => simp [hdlc_encode_payload, spec_stuffed]
  | cons s src ih =>
    by_cases h : s = 0x7d ∨ s = 0x7e
    · have h' : ¬ (s ≠ 0x7D ∧ s ≠ 0x7E) := by omega
      simp [hdlc_encode_payload, spec_stuffed, spec_stuffed_byte, ih, h, h']
    · have h' : s ≠ 0x7D ∧ s ≠ 0x7E := by omega
      simp [hdlc_encode_payload, spec_stuffed, spec_stuffed_byte, ih, h, h']

theorem hdlc_encode_tmp_eq (tmp d : List Nat) :
    hdlc_encode_tmp tmp d = d ++ spec_stuffed tmp := by
  induction tmp generalizing d with
  | nil => simp [hdlc_encode_tmp, spec_stuffed]
  | cons s tmp ih =>
    by_cases h : s = 0x7d ∨ s = 0x7e
    · have h' : ¬ (s ≠ 0x7D ∧ s ≠ 0x7E) := by omega
      simp [hdlc_encode_tmp, spec_stuffed, spec_stuffed_byte, ih, h, h']
    · have h' : s ≠ 0x7D ∧ s ≠ 0x7E := by omega
      simp [hdlc_encode_tmp, spec_stuffed, spec_stuffed_byte, ih, h, h']

theorem int_not_eq (c : Nat) : (~~~ (c : Int)) = -(c : Int) - 1 := by
  show Int.not (Int.ofNat c) = _
  simp only [Int.not, Int.negSucc_eq]
  simp
  omega

theorem spec_crc_lt (f : Nat → Nat → Nat) (p : List Nat) : spec_crc f p < 65536 := by
  unfold spec_crc
  induction p using List.reverseRecOn with
  | nil => simp
  | append_singleton p b _ =>
    rw [List.foldl_append]
    simp only [List.foldl_cons, List.foldl_nil]
    omega

theorem tmp0_eq (c : Nat) : to_uint8 ((~~~ (c : Int)) % 256) = spec_crc_lo c := by
  simp only [to_uint8, spec_crc_lo, int_not_eq]
  congr 1
  omega

theorem tmp1_eq (c : Nat) (hc : c < 65536) :
    to_uint8 ((~~~ (c : Int)) >>> (8 : Nat)) = spec_crc_hi c := by
  simp only [to_uint8, spec_crc_hi, int_not_eq]
  rw [Int.shiftRight_eq_div_pow]
  congr 1
  norm_num
  omega

theorem hdlc_encode_eq (f : Nat → Nat → Nat) (p : List Nat) :
    hdlc_encode f p = (spec_frame f p, (spec_frame f p).length) := by
  have hc := spec_crc_lt f p
  simp only [hdlc_encode, hdlc_encode_payload_eq, hdlc_encode_tmp_eq, CRC_16_L_SEED,
    List.nil_append]
  have e : List.foldl (fun c b => f c b % 65536) 65535 p = spec_crc f p := rfl
  rw [e, tmp0_eq, tmp1_eq _ hc]
  simp [spec_frame, spec_stuffed]

/-! ## Lemmas on the decoder -/

theorem getD_mid (A G : List Nat) (x : Nat) (t : List Nat) :
    (A ++ G ++ x :: t).getD (A.length + G.length) 0 = x := by
  rw [List.getD_append_right _ _ _ _ (by simp)]
  simp

theorem set_mid (A : List Nat) (g : Nat) (G t : List Nat) (x : Nat) :
    (A ++ g :: G ++ t).set A.length x = (A ++ [x]) ++ G ++ t := by
  rw [List.append_assoc, List.set_append_right _ _ (Nat.le_refl _)]
  simp

/-- The scan over a segment free of `0x7E` that is followed by a delimiter: `A` is the
memory below `dst`, `G` the bytes between `dst` and `src`. -/
theorem hdlc_decode_scan_delim (seg : List Nat) (h : 0x7e ∉ seg) :
    ∀ (n : Nat) (A G tail : List Nat) (esc : Nat), seg.length < n →
    ∃ G', G'.length + (unescape esc seg).length = G.length + seg.length ∧
      hdlc_decode_scan n (A ++ G ++ (seg ++ 0x7e :: tail)) (A.length + G.length) A.length esc
        = (A ++ unescape esc seg ++ G' ++ 0x7e :: tail,
           some (A.length + G.length + seg.length + 1,
                 A.length + (unescape esc seg).length)) := by
  induction seg with
  | nil =>
    intro n A G tail esc hn
    obtain ⟨n, rfl⟩ : ∃ m, n = m + 1 := ⟨n - 1, by simp at hn; omega⟩
    refine ⟨G, by simp [unescape], ?_⟩
    rw [hdlc_decode_scan]
    simp only [List.nil_append, getD_mid, if_true, unescape, List.append_nil, List.length_nil,
      Nat.add_zero]
  | cons ch r ih =>
    intro n A G tail esc hn
    obtain ⟨n, rfl⟩ : ∃ m, n = m + 1 := ⟨n - 1, by simp at hn; omega⟩
    have hch : ch ≠ 0x7e := fun e => h (by simp [e])
    have hr : 0x7e ∉ r := fun e => h (by simp [e])
    have hn' : r.length < n := by simp at hn; omega
    have hmem : A ++ G ++ (ch :: r ++ 0x7e :: tail)
        = A ++ (G ++ [ch]) ++ (r ++ 0x7e :: tail) := by simp
    have hget : (A ++ G ++ (ch :: r ++ 0x7e :: tail)).getD (A.length + G.length) 0 = ch := by
      simpa using getD_mid A G ch (r ++ 0x7e :: tail)
    by_cases h7d : ch = 0x7d
    · obtain ⟨G', hlen, hscan⟩ := ih hr n A (G ++ [ch]) tail 0x20 hn'
      refine ⟨G', by simp [unescape, h7d] at hlen ⊢; omega, ?_⟩
      rw [hdlc_decode_scan]
      simp only [hget, if_neg hch, if_pos h7d]
      rw [hmem]
      have e : A.length + G.length + 1 = A.length + (G ++ [ch]).length := by simp; omega
      rw [e, hscan]
      simp [unescape, h7d]
      omega
    · obtain ⟨g, G2, hG⟩ : ∃ g G2, G ++ [ch] = g :: G2 := by
        cases G with
        | nil => exact ⟨ch, [], rfl⟩
        | cons g G0 => exact ⟨g, G0 ++ [ch], rfl⟩
      have hG2 : G2.length = G.length := by
        have := congrArg List.length hG
        simp at this
        omega
      obtain ⟨G', hlen, hscan⟩ := ih hr n (A ++ [ch ^^^ esc]) G2 tail 0 hn'
      refine ⟨G', by simp [unescape, h7d] at hlen ⊢; omega, ?_⟩
      rw [hdlc_decode_scan]
      simp only [hget, if_neg hch, if_neg h7d]
      rw [hmem, hG]
      have hset := set_mid A g G2 (r ++ 0x7e :: tail) (ch ^^^ esc)
      simp only [List.append_assoc] at hset ⊢
      rw [hset]
      have e1 : A.length + (G.length + 1) = (A ++ [ch ^^^ esc]).length + G2.length := by
        simp; omega
      have e2 : A.length + 1 = (A ++ [ch ^^^ esc]).length := by simp
      have e3 : A.length + G.length + 1 = (A ++ [ch ^^^ esc]).length + G2.length := by
        simp; omega
      simp only [List.append_assoc] at hscan
      rw [e3, e2, hscan]
      simp [unescape, h7d]
      omega

/-- Without a `0x7E` in the supplied input the scan ends with `NULL`. -/
theorem hdlc_decode_scan_none : ∀ (n : Nat) (mem : List Nat) (src dst esc : Nat),
    dst ≤ src → 0x7e ∉ (mem.drop src).take n →
    (hdlc_decode_scan n mem src dst esc).2 = none := by
  intro n
  induction n with
  | zero => intro mem src dst esc _ _; rfl
  | succ n ih =>
    intro mem src dst esc hle hno
    have hch : mem.getD src 0 ≠ 0x7e := by
      intro e
      apply hno
      by_cases hlt : src < mem.length
      · rw [List.drop_eq_getElem_cons hlt]
        simp [List.getD_eq_getElem?_getD, List.getElem?_eq_getElem hlt] at e
        simp [e]
      · simp [List.getD_eq_getElem?_getD, List.getElem?_eq_none (Nat.le_of_not_lt hlt)] at e
    have hrest : 0x7e ∉ (mem.drop (src + 1)).take n := by
      intro hin
      apply hno
      by_cases hlt : src < mem.length
      · rw [List.drop_eq_getElem_cons hlt, List.take_succ_cons]
        exact List.mem_cons_of_mem _ hin
      · rw [List.drop_eq_nil_of_le (by omega)] at hin
        simp at hin
    rw [hdlc_decode_scan]
    simp only [if_neg hch]
    by_cases h7d : mem.getD src 0 = 0x7d
    · simp only [if_pos h7d]
      exact ih mem (src + 1) dst 0x20 (by omega) hrest
    · simp only [if_neg h7d]
      apply ih _ (src + 1) (dst + 1) 0 (by omega)
      rw [List.drop_set_of_lt _ _ (by omega)]
      exact hrest

/-- A call whose window starts with a segment free of `0x7E` followed by a delimiter. -/
theorem hdlc_decode_one_delim (mem : List Nat) (buf len : Nat) (seg t : List Nat)
    (hw : window mem buf len = seg ++ 0x7e :: t) (hseg : 0x7e ∉ seg) :
    ∃ G', G'.length + (unescape 0 seg).length = seg.length ∧
      hdlc_decode_one mem buf len =
        { mem := mem.take buf ++ unescape 0 seg ++ G' ++ 0x7e :: (t ++ mem.drop (buf + len))
          buf := buf + seg.length + 1
          len := to_size_t ((len : Int) - ((seg.length : Int) + 1))
          ret := some (buf, to_size_t (((unescape 0 seg).length : Int) - 2)) } := by
  unfold window at hw
  have hbuf : buf ≤ mem.length := by
    by_contra hc
    rw [List.drop_eq_nil_of_le (by omega)] at hw
    simp at hw
  have hlen : seg.length < len := by
    have := congrArg List.length hw
    simp at this
    omega
  have hmem : mem = mem.take buf ++ [] ++ (seg ++ 0x7e :: (t ++ mem.drop (buf + len))) := by
    have h1 : mem.drop buf = (mem.drop buf).take len ++ (mem.drop buf).drop len :=
      (List.take_append_drop _ _).symm
    rw [hw, List.drop_drop] at h1
    have h2 : mem = mem.take buf ++ mem.drop buf := (List.take_append_drop _ _).symm
    rw [h1] at h2
    simpa [Nat.add_comm] using h2
  have hA : (mem.take buf).length = buf := by simp [hbuf]
  obtain ⟨G', hG, hscan⟩ := hdlc_decode_scan_delim seg hseg len (mem.take buf) []
    (t ++ mem.drop (buf + len)) 0 hlen
  refine ⟨G', by simpa using hG, ?_⟩
  rw [← hmem] at hscan
  simp only [hA, List.length_nil, Nat.add_zero] at hscan
  unfold hdlc_decode_one
  simp only [hscan]
  congr 2
  · congr 1
    push_cast
    omega
  · congr 2
    push_cast
    omega

theorem hdlc_decode_one_none (mem : List Nat) (buf len : Nat)
    (h : 0x7e ∉ window mem buf len) :
    (hdlc_decode_one mem buf len).ret = none ∧ (hdlc_decode_one mem buf len).buf = buf ∧
      (hdlc_decode_one mem buf len).len = len := by
  have hs := hdlc_decode_scan_none len mem buf buf 0 (Nat.le_refl _) h
  unfold hdlc_decode_one
  rcases hsc : hdlc_decode_scan len mem buf buf 0 with ⟨m, o⟩
  rw [hsc] at hs
  simp only at hs
  subst hs
  simp

/-- A list containing `a` splits at the first occurrence of `a`. -/
theorem split_first (a : Nat) : ∀ (l : List Nat), a ∈ l →
    ∃ s t, l = s ++ a :: t ∧ a ∉ s ∧ s.length = l.indexOf a := by
  intro l
  induction l with
  | nil => intro h; simp at h
  | cons x l ih =>
    intro h
    by_cases hx : x = a
    · exact ⟨[], l, by simp [hx], by simp, by simp [hx]⟩
    · have hl : a ∈ l := by
        rcases List.mem_cons.1 h with e | e
        · exact absurd e.symm hx
        · exact e
      obtain ⟨s, t, e, hs, hlen⟩ := ih hl
      refine ⟨x :: s, t, by simp [e], ?_, ?_⟩
      · simp only [List.mem_cons, not_or]
        exact ⟨fun e => hx e.symm, hs⟩
      · rw [List.indexOf_cons_ne _ hx]
        simp [hlen]

theorem not_mem_spec_stuffed (p : List Nat) : 0x7e ∉ spec_stuffed p := by
  induction p with
  | nil => simp [spec_stuffed]
  | cons b p ih =>
    simp only [spec_stuffed, List.mem_append, not_or]
    refine ⟨?_, ih⟩
    unfold spec_stuffed_byte
    split
    · rename_i hb
      simp only [List.mem_singleton]
      omega
    · rename_i hb
      have hb' : b = 0x7D ∨ b = 0x7E := by omega
      rcases hb' with rfl | rfl <;> decide

theorem unescape_spec_stuffed (p : List Nat) : unescape 0 (spec_stuffed p) = p := by
  induction p with
  | nil => rfl
  | cons b p ih =>
    unfold spec_stuffed spec_stuffed_byte
    split
    · rename_i hb
      have : b ≠ 0x7d := hb.1
      simp [unescape, this, ih]
    · rename_i hb
      have hb' : b = 0x7D ∨ b = 0x7E := by omega
      rcases hb' with rfl | rfl <;> simp [unescape, ih]

/-! ## Lemmas on dispatch -/

theorem hdlc_enqueue_eq (f : Nat → Nat → Nat) (q : List (List Nat)) (msg : List Nat) :
    hdlc_enqueue f q msg = q ++ [(hdlc_encode f msg).1] := by
  simp [hdlc_enqueue, hdlc_encode_eq, list_add]

theorem deliver_zero (buf : List Nat) (p : peripheral) : p.deliver 0 buf = p := by
  cases p
  simp [peripheral.deliver]

theorem covers_iff (dc : diag_cmd) (key : Nat) :
    dc.covers key = true ↔ ¬ (key < dc.first ∨ key > dc.last) := by
  simp only [diag_cmd.covers, Bool.and_eq_true, decide_eq_true_eq]
  omega

/-- The dispatch loop: the counter grows by the number of matching routes, and every
peripheral record receives one forwarded buffer per matching route it owns. -/
theorem diag_cmd_dispatch_loop_spec (H : headers) (ptr : List Nat) (key : Nat) :
    ∀ (cmds : List diag_cmd) (ps : List peripheral) (handled : Int),
    (∀ dc ∈ cmds, dc.peripheral < ps.length) →
    ∃ ps', diag_cmd_dispatch_loop H ptr key cmds ps handled
        = some (ps', handled + (match_count key cmds : Nat)) ∧
      ps'.length = ps.length ∧
      ∀ i : Nat, ps'[i]? = (ps[i]?).map
        (fun p : peripheral => p.deliver (owned_count key cmds i) (forwarded H p ptr)) := by
  intro cmds
  induction cmds with
  | nil =>
    intro ps handled _
    refine ⟨ps, by simp [diag_cmd_dispatch_loop, match_count], rfl, ?_⟩
    intro i
    cases h : ps[i]? <;> simp [owned_count, deliver_zero]
  | cons dc rest ih =>
    intro ps handled hv
    have hvr : ∀ ps1 : List peripheral, ps1.length = ps.length →
        ∀ d ∈ rest, d.peripheral < ps1.length := by
      intro ps1 e d hd
      rw [e]
      exact hv d (List.mem_cons_of_mem _ hd)
    by_cases hc : key < dc.first ∨ key > dc.last
    · have hcov : dc.covers key = false := by
        cases h : dc.covers key
        · rfl
        · exact absurd hc ((covers_iff dc key).1 h)
      obtain ⟨ps', hloop, hl, hps⟩ := ih ps handled (hvr ps rfl)
      refine ⟨ps', ?_, hl, ?_⟩
      · rw [diag_cmd_dispatch_loop, if_pos hc, hloop]
        simp [match_count, List.filter_cons, hcov]
      · intro i
        rw [hps i]
        simp [owned_count, List.filter_cons, hcov]
    · have hcov : dc.covers key = true := (covers_iff dc key).2 hc
      have hidx : dc.peripheral < ps.length := hv dc (List.mem_cons_self _ _)
      have hget : ps[dc.peripheral]? = some ps[dc.peripheral] := List.getElem?_eq_getElem hidx
      generalize hp : ps[dc.peripheral] = p at hget
      have hq : (if p.features &&& H.DIAG_FEATURE_APPS_HDLC_ENCODE ≠ 0 then
            queue_push p.dataq ptr else hdlc_enqueue H.crc_ccitt_byte p.dataq ptr)
          = p.dataq ++ [forwarded H p ptr] := by
        unfold forwarded peripheral.self_framing
        by_cases hf : p.features &&& H.DIAG_FEATURE_APPS_HDLC_ENCODE ≠ 0
        · simp [hf, queue_push, list_add]
        · simp [hf, hdlc_enqueue_eq]
      obtain ⟨ps', hloop, hl, hps⟩ :=
        ih (ps.set dc.peripheral { p with dataq := p.dataq ++ [forwarded H p ptr] })
          (handled + 1) (hvr _ (by simp))
      refine ⟨ps', ?_, by simpa using hl, ?_⟩
      · rw [diag_cmd_dispatch_loop, if_neg hc]
        simp only [hget, hq]
        rw [hloop]
        simp only [match_count, List.filter_cons, hcov, if_true, List.length_cons]
        congr 2
        push_cast
        omega
      · intro i
        rw [hps i, List.getElem?_set]
        by_cases hi : dc.peripheral = i
        · subst hi
          simp only [if_pos hidx, if_true, Option.map_some', hget, Option.some.injEq]
          simp only [owned_count, List.filter_cons, hcov, decide_True, Bool.and_self, if_true,
            List.length_cons]
          simp only [peripheral.deliver, forwarded, peripheral.self_framing,
            List.replicate_succ, List.append_assoc, List.singleton_append]
        · simp only [if_neg hi]
          simp [owned_count, List.filter_cons, hi]

/-! ## Further lemmas on the codec -/

theorem to_size_t_sub (a b : Nat) (hb : b ≤ a) (ha : a < 2 ^ 64) :
    to_size_t ((a : Int) - (b : Int)) = a - b := by
  unfold to_size_t
  norm_num at ha
  omega

theorem window_all (mem : List Nat) : window mem 0 mem.length = mem := by
  simp [window]

theorem spec_frame_with_eq (p : List Nat) (c0 c1 : Nat) :
    spec_frame_with p c0 c1 = spec_stuffed (p ++ [c0, c1]) ++ [0x7e] := by
  simp [spec_frame_with, spec_stuffed_append, spec_stuffed]

theorem spec_frame_eq (f : Nat → Nat → Nat) (p : List Nat) :
    spec_frame f p
      = spec_frame_with p (spec_crc_lo (spec_crc f p)) (spec_crc_hi (spec_crc f p)) := rfl

/-- Decoding a frame `stuffed(p) stuffed(c0) stuffed(c1) 0x7E` yields `p`, whatever the
trailer bytes are, and consumes the whole frame. -/
theorem decode_frame_with (p : List Nat) (c0 c1 : Nat) (hlen : p.length < 2 ^ 64) :
    (hdlc_decode_one (spec_frame_with p c0 c1) 0 (spec_frame_with p c0 c1).length).message
        = some p ∧
      (hdlc_decode_one (spec_frame_with p c0 c1) 0 (spec_frame_with p c0 c1).length).ret
        = some (0, p.length) ∧
      (hdlc_decode_one (spec_frame_with p c0 c1) 0 (spec_frame_with p c0 c1).length).buf
        = (spec_frame_with p c0 c1).length := by
  have hw : window (spec_frame_with p c0 c1) 0 (spec_frame_with p c0 c1).length
      = spec_stuffed (p ++ [c0, c1]) ++ 0x7e :: [] := by
    rw [window_all, spec_frame_with_eq]
  obtain ⟨G', -, hdec⟩ := hdlc_decode_one_delim _ 0 _ _ _ hw (not_mem_spec_stuffed _)
  have hsz : to_size_t (((p ++ [c0, c1]).length : Int) - 2) = p.length := by
    unfold to_size_t
    norm_num at hlen ⊢
    omega
  rw [hdec, unescape_spec_stuffed, hsz]
  refine ⟨?_, rfl, ?_⟩
  · simp [decode_result.message]
  · simp [spec_frame_with_eq]

theorem spec_stuffed_follow : ∀ (q : List Nat) (i : Nat),
    (spec_stuffed q)[i]? = some 0x7D →
    (spec_stuffed q)[i + 1]? = some 0x5D ∨ (spec_stuffed q)[i + 1]? = some 0x5E := by
  intro q
  induction q with
  | nil => intro i h; simp [spec_stuffed] at h
  | cons b q ih =>
    intro i h
    unfold spec_stuffed spec_stuffed_byte at h ⊢
    split at h
    · rename_i hb
      simp only [if_pos hb] at h ⊢
      cases i with
      | zero => simp at h; exact absurd h hb.1
      | succ j =>
        simp only [List.singleton_append, List.getElem?_cons_succ] at h ⊢
        exact ih j h
    · rename_i hb
      simp only [if_neg hb] at h ⊢
      have hb' : b = 0x7D ∨ b = 0x7E := by omega
      cases i with
      | zero => rcases hb' with rfl | rfl <;> simp
      | succ j =>
        cases j with
        | zero => rcases hb' with rfl | rfl <;> simp at h
        | succ k =>
          simp only [List.cons_append, List.nil_append, List.getElem?_cons_succ] at h ⊢
          exact ih k h

theorem spec_stuffed_tokens (q : List Nat) :
    spec_stuffed q = (q.map spec_stuffed_byte).flatten := by
  induction q with
  | nil => rfl
  | cons b q ih => simp [spec_stuffed, ih]

/-! ## Claims on the codec -/

/-- C1: round trip of the HDLC codec.  For every payload `p` (whose length is a `size_t`),
so in particular for every payload not containing the delimiter byte `0x7E`,
`hdlc_decode_one` run on the output of `hdlc_encode` over its reported length succeeds and
returns a message with the bytes and the length of `p`. -/
theorem hdlc_round_trip (crc_ccitt_byte : Nat → Nat → Nat) (p : List Nat)
    (hlen : p.length < 2 ^ 64) :
    (hdlc_decode_one (hdlc_encode crc_ccitt_byte p).1 0
        (hdlc_encode crc_ccitt_byte p).2).message = some p ∧
      (hdlc_decode_one (hdlc_encode crc_ccitt_byte p).1 0
        (hdlc_encode crc_ccitt_byte p).2).ret = some (0, p.length) := by
  rw [hdlc_encode_eq, spec_frame_eq]
  exact ⟨(decode_frame_with p _ _ hlen).1, (decode_frame_with p _ _ hlen).2.1⟩

theorem hdlc_round_trip_witness :
    [1, 0x7d, 0x20, 0x7e, 5].length < 2 ^ 64 ∧
      (hdlc_decode_one (hdlc_encode (fun c b => c * 31 + b) [1, 0x7d, 0x20, 0x7e, 5]).1 0
        (hdlc_encode (fun c b => c * 31 + b) [1, 0x7d, 0x20, 0x7e, 5]).2).message
        = some [1, 0x7d, 0x20, 0x7e, 5] :=
  ⟨by decide, (hdlc_round_trip (fun c b => c * 31 + b) [1, 0x7d, 0x20, 0x7e, 5] (by decide)).1⟩

/-- C2: stuffing correctness of `hdlc_encode`.  For every payload the output is a body
followed by the byte `0x7E`; no byte of the body is `0x7E`; every `0x7D` in the body is
immediately followed by `0x5D` or `0x5E`; and the body is a concatenation of single bytes
outside `{0x7D, 0x7E}` and of pairs `(0x7D, b XOR 0x20)` with `b` in `{0x7D, 0x7E}`. -/
theorem hdlc_encode_stuffing (crc_ccitt_byte : Nat → Nat → Nat) (p : List Nat) :
    ∃ body : List Nat, (hdlc_encode crc_ccitt_byte p).1 = body ++ [0x7E] ∧
      0x7E ∉ body ∧
      (∀ i : Nat, body[i]? = some 0x7D →
        body[i + 1]? = some 0x5D ∨ body[i + 1]? = some 0x5E) ∧
      ∃ toks : List (List Nat), body = toks.flatten ∧
        ∀ t ∈ toks, (∃ b, b ≠ 0x7D ∧ b ≠ 0x7E ∧ t = [b]) ∨
          (∃ b, (b = 0x7D ∨ b = 0x7E) ∧ t = [0x7D, b ^^^ 0x20]) := by
  refine ⟨spec_stuffed (p ++ [spec_crc_lo (spec_crc crc_ccitt_byte p),
    spec_crc_hi (spec_crc crc_ccitt_byte p)]), ?_, not_mem_spec_stuffed _,
    spec_stuffed_follow _, _, spec_stuffed_tokens _, ?_⟩
  · rw [hdlc_encode_eq, spec_frame_eq, spec_frame_with_eq]
  · intro t ht
    obtain ⟨b, -, rfl⟩ := List.mem_map.1 ht
    unfold spec_stuffed_byte
    split
    · rename_i hb
      exact Or.inl ⟨b, hb.1, hb.2, rfl⟩
    · rename_i hb
      exact Or.inr ⟨b, by omega, rfl⟩

/-- C3: frame grammar of `hdlc_encode`.  For every payload `p` the output is
`stuffed(p) ++ stuffed(crc_lo) ++ stuffed(crc_hi) ++ [0x7E]`, where `c` is the fold of
`crc_ccitt_byte` over `p` from the seed `0xFFFF`, `crc_lo = (NOT c) mod 256` and
`crc_hi = ((NOT c) mod 65536) div 256`; the reported length is the length of the output;
the value the C expression `~crc >> 8` leaves in a `uint8_t` is that `crc_hi`; and both
are the bytes of the 16-bit complement `65535 - c`. -/
theorem hdlc_encode_frame_grammar (crc_ccitt_byte : Nat → Nat → Nat) (p : List Nat) :
    (hdlc_encode crc_ccitt_byte p).1 = spec_frame crc_ccitt_byte p ∧
      (hdlc_encode crc_ccitt_byte p).2 = (spec_frame crc_ccitt_byte p).length ∧
      to_uint8 ((~~~ (spec_crc crc_ccitt_byte p : Int)) >>> (8 : Nat))
        = spec_crc_hi (spec_crc crc_ccitt_byte p) ∧
      spec_crc_lo (spec_crc crc_ccitt_byte p) = (65535 - spec_crc crc_ccitt_byte p) % 256 ∧
      spec_crc_hi (spec_crc crc_ccitt_byte p) = (65535 - spec_crc crc_ccitt_byte p) / 256 := by
  have hc := spec_crc_lt crc_ccitt_byte p
  refine ⟨by rw [hdlc_encode_eq], by rw [hdlc_encode_eq], tmp1_eq _ hc, ?_, ?_⟩
  · simp only [spec_crc_lo, int_not_eq]
    omega
  · simp only [spec_crc_hi, int_not_eq]
    omega

/-- C4: the CRC is stripped, never verified.  For every payload `p` (whose length is a
`size_t`) and every pair of bytes `(c0, c1)`, `hdlc_decode_one` applied to
`stuffed(p) ++ stuffed(c0) ++ stuffed(c1) ++ [0x7E]` succeeds and returns exactly `p`; the
returned message is the same for every other pair of trailer bytes. -/
theorem hdlc_decode_strips_crc (p : List Nat) (c0 c1 : Nat) (hlen : p.length < 2 ^ 64) :
    (hdlc_decode_one (spec_frame_with p c0 c1) 0 (spec_frame_with p c0 c1).length).message
        = some p ∧
      ∀ d0 d1 : Nat,
        (hdlc_decode_one (spec_frame_with p d0 d1) 0 (spec_frame_with p d0 d1).length).message
          = (hdlc_decode_one (spec_frame_with p c0 c1) 0
              (spec_frame_with p c0 c1).length).message := by
  refine ⟨(decode_frame_with p c0 c1 hlen).1, ?_⟩
  intro d0 d1
  rw [(decode_frame_with p c0 c1 hlen).1, (decode_frame_with p d0 d1 hlen).1]

theorem hdlc_decode_strips_crc_witness :
    [0x7e, 7, 0x7d].length < 2 ^ 64 ∧
      (hdlc_decode_one (spec_frame_with [0x7e, 7, 0x7d] 0x7d 0xab) 0
        (spec_frame_with [0x7e, 7, 0x7d] 0x7d 0xab).length).message = some [0x7e, 7, 0x7d] :=
  ⟨by decide, (hdlc_decode_strips_crc [0x7e, 7, 0x7d] 0x7d 0xab (by decide)).1⟩

/-- C5: `hdlc_decode_one` returns `NULL` exactly when the supplied input, the `len` bytes
from the cursor on, contains no `0x7E` byte; in that case the caller's cursor `*buf` and
remaining length `*len` are left unchanged. -/
theorem hdlc_decode_none_iff (mem : List Nat) (buf len : Nat) :
    ((hdlc_decode_one mem buf len).ret = none ↔ 0x7E ∉ window mem buf len) ∧
      ((hdlc_decode_one mem buf len).ret = none →
        (hdlc_decode_one mem buf len).buf = buf ∧ (hdlc_decode_one mem buf len).len = len) := by
  have hiff : (hdlc_decode_one mem buf len).ret = none ↔ 0x7E ∉ window mem buf len := by
    constructor
    · intro hnone hin
      obtain ⟨s, t, hw, hs, -⟩ := split_first 0x7E _ hin
      obtain ⟨G', -, hdec⟩ := hdlc_decode_one_delim mem buf len s t hw hs
      rw [hdec] at hnone
      simp at hnone
    · intro h
      exact (hdlc_decode_one_none mem buf len h).1
  refine ⟨hiff, ?_⟩
  intro hnone
  exact (hdlc_decode_one_none mem buf len (hiff.1 hnone)).2

/-- C6: consumed length of `hdlc_decode_one`.  For every input containing a `0x7E` byte,
with `i` the index of the first `0x7E` in the input (whatever byte precedes it), the call
advances the cursor by exactly `i + 1` and decreases the remaining length by exactly
`i + 1`, so that consumed length plus new remaining length is the old remaining length. -/
theorem hdlc_decode_consumed (mem : List Nat) (buf len : Nat) (hlen : len < 2 ^ 64)
    (h : 0x7E ∈ window mem buf len) :
    (hdlc_decode_one mem buf len).buf = buf + ((window mem buf len).indexOf 0x7E + 1) ∧
      (hdlc_decode_one mem buf len).len = len - ((window mem buf len).indexOf 0x7E + 1) ∧
      (hdlc_decode_one mem buf len).consumed buf = (window mem buf len).indexOf 0x7E + 1 ∧
      (hdlc_decode_one mem buf len).consumed buf + (hdlc_decode_one mem buf len).len = len := by
  obtain ⟨s, t, hw, hs, hidx⟩ := split_first 0x7E _ h
  obtain ⟨G', -, hdec⟩ := hdlc_decode_one_delim mem buf len s t hw hs
  have hle : s.length + 1 ≤ len := by
    have h1 := congrArg List.length hw
    have h2 : (window mem buf len).length ≤ len := by simp [window, List.length_take]
    simp at h1
    omega
  have hsz := to_size_t_sub len (s.length + 1) hle hlen
  push_cast at hsz
  rw [hdec, ← hidx]
  simp only [decode_result.consumed, hsz]
  clear hsz hidx hdec hlen
  refine ⟨by omega, trivial, by omega, by omega⟩

theorem hdlc_decode_consumed_witness :
    (5 : Nat) < 2 ^ 64 ∧ 0x7E ∈ window [0, 1, 0x7d, 0x7e, 3, 4, 0x7e, 9, 9] 1 5 ∧
      (hdlc_decode_one [0, 1, 0x7d, 0x7e, 3, 4, 0x7e, 9, 9] 1 5).buf
        = 1 + ((window [0, 1, 0x7d, 0x7e, 3, 4, 0x7e, 9, 9] 1 5).indexOf 0x7E + 1) :=
  ⟨by decide, by decide,
    (hdlc_decode_consumed [0, 1, 0x7d, 0x7e, 3, 4, 0x7e, 9, 9] 1 5 (by decide) (by decide)).1⟩

/-! ## Lemmas on the routing key -/

theorem key_subsys_eq (b0 b1 b2 b3 : Nat) (h0 : b0 < 256) (h1 : b1 < 256) (h2 : b2 < 256)
    (h3 : b3 < 256) :
    (b0 <<< 24 ||| b1 <<< 16 ||| b3 <<< 8 ||| b2) % 4294967296
      = b0 * 2 ^ 24 + b1 * 2 ^ 16 + b3 * 2 ^ 8 + b2 := by
  have e1 : b0 <<< 24 ||| b1 <<< 16 = 2 ^ 16 * (b0 * 2 ^ 8 + b1) := by
    have := Nat.mul_add_lt_is_or (i := 24) (b := b1 <<< 16)
      (by rw [Nat.shiftLeft_eq]; omega) b0
    rw [Nat.shiftLeft_eq b0, Nat.mul_comm b0, ← this, Nat.shiftLeft_eq]
    omega
  have e2 : 2 ^ 16 * (b0 * 2 ^ 8 + b1) ||| b3 <<< 8
      = 2 ^ 8 * (b0 * 2 ^ 16 + b1 * 2 ^ 8 + b3) := by
    have := Nat.mul_add_lt_is_or (i := 16) (b := b3 <<< 8)
      (by rw [Nat.shiftLeft_eq]; omega) (b0 * 2 ^ 8 + b1)
    rw [← this, Nat.shiftLeft_eq]
    omega
  have e3 : 2 ^ 8 * (b0 * 2 ^ 16 + b1 * 2 ^ 8 + b3) ||| b2
      = b0 * 2 ^ 24 + b1 * 2 ^ 16 + b3 * 2 ^ 8 + b2 := by
    have := Nat.mul_add_lt_is_or (i := 8) (b := b2) (by omega) (b0 * 2 ^ 16 + b1 * 2 ^ 8 + b3)
    rw [← this]
    omega
  rw [e1, e2, e3]
  omega

theorem key_simple_eq (b0 : Nat) (h0 : b0 < 256) :
    (0xff <<< 24 ||| 0xff <<< 16 ||| b0) % 4294967296 = 0xFFFF0000 + b0 := by
  have e1 : (0xff <<< 24 ||| 0xff <<< 16 : Nat) = 2 ^ 16 * 0xFFFF := by decide
  have := Nat.mul_add_lt_is_or (i := 16) (b := b0) (by omega) 0xFFFF
  rw [e1, ← this]
  omega

/-- The whole of `diag_cmd_dispatch` for a message whose key is defined and routes whose
peripherals exist. -/
theorem diag_cmd_dispatch_spec (H : headers) (w : world) (ptr : List Nat) (k : Nat)
    (hkey : diag_cmd_key H.DIAG_CMD_SUBSYS_DISPATCH ptr = some k)
    (hv : ∀ dc ∈ w.diag_cmds, dc.peripheral < w.peripherals.length) :
    ∃ ps', diag_cmd_dispatch H w ptr
        = some ({ w with peripherals := ps' },
            if match_count k w.diag_cmds = 0 then -ENOENT else 0) ∧
      diag_cmd_dispatch_loop H ptr k w.diag_cmds w.peripherals 0
        = some (ps', ((match_count k w.diag_cmds : Nat) : Int)) ∧
      ps'.length = w.peripherals.length ∧
      ∀ i : Nat, ps'[i]? = (w.peripherals[i]?).map
        (fun p : peripheral => p.deliver (owned_count k w.diag_cmds i) (forwarded H p ptr)) := by
  obtain ⟨ps', hloop, hl, hps⟩ := diag_cmd_dispatch_loop_spec H ptr k w.diag_cmds w.peripherals 0 hv
  refine ⟨ps', ?_, by simpa using hloop, hl, hps⟩
  unfold diag_cmd_dispatch
  simp only [hkey, hloop, Option.bind_eq_bind, Option.some_bind, Option.pure_def]
  by_cases h0 : match_count k w.diag_cmds = 0
  · simp [h0]
  · have : ¬ ((0 : Int) + (match_count k w.diag_cmds : Int) = 0) := by omega
    simp [h0, this]

/-! ## Claims on routing -/

/-- C7: routing key derivation in `diag_cmd_dispatch`.  For every message `m` of bytes of
length at least 4 whose first byte is the subsystem-dispatch opcode the key is
`m[0]*2^24 + m[1]*2^16 + m[3]*2^8 + m[2]`; for every non-empty message whose first byte is
any other value the key is `0xFFFF0000 + m[0]`; every key is an unsigned 32-bit value. -/
theorem diag_cmd_key_derivation (opcode : Nat) (m : List Nat) (hb : ∀ b ∈ m, b < 256) :
    (4 ≤ m.length → m.getD 0 0 = opcode →
      diag_cmd_key opcode m
        = some (m.getD 0 0 * 2 ^ 24 + m.getD 1 0 * 2 ^ 16 + m.getD 3 0 * 2 ^ 8 + m.getD 2 0)) ∧
    (1 ≤ m.length → m.getD 0 0 ≠ opcode →
      diag_cmd_key opcode m = some (0xFFFF0000 + m.getD 0 0)) ∧
    ∀ k, diag_cmd_key opcode m = some k → k < 2 ^ 32 := by
  refine ⟨?_, ?_, ?_⟩
  · intro h4 h0
    match m, hb, h4, h0 with
    | b0 :: b1 :: b2 :: b3 :: rest, hb, _, h0 =>
      simp only [List.getD_cons_zero, List.getD_cons_succ] at h0 ⊢
      have e := key_subsys_eq b0 b1 b2 b3 (hb b0 (by simp)) (hb b1 (by simp))
        (hb b2 (by simp)) (hb b3 (by simp))
      subst h0
      rw [← e]
      simp [diag_cmd_key]
  · intro h1 h0
    match m, hb, h1, h0 with
    | b0 :: rest, hb, _, h0 =>
      simp only [List.getD_cons_zero] at h0 ⊢
      have e := key_simple_eq b0 (hb b0 (by simp))
      simp [diag_cmd_key, h0, ← e]
  · intro k hk
    unfold diag_cmd_key at hk
    cases h0 : m[0]? with
    | none => simp [h0] at hk
    | some p0 =>
      simp only [h0, Option.bind_eq_bind, Option.some_bind] at hk
      split at hk
      · cases h1 : m[1]? with
        | none => simp [h1] at hk
        | some p1 =>
          cases h3 : m[3]? with
          | none => simp [h1, h3] at hk
          | some p3 =>
            cases h2 : m[2]? with
            | none => simp [h1, h3, h2] at hk
            | some p2 =>
              simp only [h1, h3, h2, Option.some_bind, Option.pure_def, Option.some.injEq] at hk
              omega
      · simp only [Option.pure_def, Option.some.injEq] at hk
        omega

theorem diag_cmd_key_derivation_witness :
    (∀ b ∈ [0x4B, 0x12, 0x34, 0x56, 0x99], b < 256) ∧
      diag_cmd_key 0x4B [0x4B, 0x12, 0x34, 0x56, 0x99] = some 0x4B125634 :=
  ⟨by decide,
    (diag_cmd_key_derivation 0x4B [0x4B, 0x12, 0x34, 0x56, 0x99] (by decide)).1
      (by decide) (by decide)⟩

/-- C8: routing fan-out.  For every routing table (whose routes point to existing
peripherals) and every message with routing key `k`, `diag_cmd_dispatch` succeeds, leaves
the routing table and all clients unchanged, and for every peripheral appends to its data
queue exactly as many buffers as there are registered routes of that peripheral whose
inclusive range contains `k`, changing nothing else in its record; a peripheral with no
such route is left unchanged. -/
theorem diag_cmd_dispatch_fan_out (H : headers) (w : world) (ptr : List Nat) (k : Nat)
    (hkey : diag_cmd_key H.DIAG_CMD_SUBSYS_DISPATCH ptr = some k)
    (hv : ∀ dc ∈ w.diag_cmds, dc.peripheral < w.peripherals.length) :
    ∃ w' ret, diag_cmd_dispatch H w ptr = some (w', ret) ∧
      w'.diag_clients = w.diag_clients ∧ w'.diag_cmds = w.diag_cmds ∧
      w'.peripherals.length = w.peripherals.length ∧
      ∀ (i : Nat) (p : peripheral), w.peripherals[i]? = some p →
        (∃ added : List (List Nat), added.length = owned_count k w.diag_cmds i ∧
          w'.peripherals[i]? = some { p with dataq := p.dataq ++ added }) ∧
        (owned_count k w.diag_cmds i = 0 → w'.peripherals[i]? = some p) := by
  obtain ⟨ps', hd, -, hl, hps⟩ := diag_cmd_dispatch_spec H w ptr k hkey hv
  refine ⟨_, _, hd, rfl, rfl, hl, ?_⟩
  intro i p hp
  have hi := hps i
  rw [hp] at hi
  refine ⟨⟨_, List.length_replicate _ _, hi⟩, ?_⟩
  intro h0
  simp only [hi, h0, Option.map_some', deliver_zero]

theorem diag_cmd_dispatch_fan_out_witness :
    diag_cmd_key sample_headers_zero.DIAG_CMD_SUBSYS_DISPATCH [0, 0, 0xA0, 0]
        = some 0x000000A0 ∧
      owned_count 0x000000A0 sample_world.diag_cmds 0 = 1 ∧
      owned_count 0x000000A0 sample_world.diag_cmds 1 = 1 ∧
      owned_count 0x000000A0 sample_world.diag_cmds 2 = 0 ∧
      ∃ w' ret, diag_cmd_dispatch sample_headers_zero sample_world [0, 0, 0xA0, 0]
          = some (w', ret) ∧ w'.diag_clients = sample_world.diag_clients := by
  obtain ⟨w', ret, h, hc, -⟩ := diag_cmd_dispatch_fan_out sample_headers_zero sample_world
    [0, 0, 0xA0, 0] 0x000000A0 (by decide) (by decide)
  exact ⟨by decide, by decide, by decide, by decide, w', ret, h, hc⟩

/-- C9, as the claim states it, fails: with two registered routes containing the key the
function returns `0`, not `2`. -/
theorem diag_cmd_dispatch_return_not_count :
    diag_cmd_key sample_headers_zero.DIAG_CMD_SUBSYS_DISPATCH [0, 0, 0xA0, 0]
        = some 0x000000A0 ∧
      match_count 0x000000A0 sample_world.diag_cmds = 2 ∧
      (diag_cmd_dispatch sample_headers_zero sample_world [0, 0, 0xA0, 0]).map Prod.snd
        = some 0 ∧
      (diag_cmd_dispatch sample_headers_zero sample_world [0, 0, 0xA0, 0]).map Prod.snd
        ≠ some ((match_count 0x000000A0 sample_world.diag_cmds : Nat) : Int) := by
  decide

/-- C9, amended: for every routing table (whose routes point to existing peripherals) and
every message with routing key `k`, `diag_cmd_dispatch` counts in `handled` the registered
routes whose inclusive range contains `k`, and returns `0` when that count is not zero and
`-ENOENT`, the "no route" result, when it is zero. -/
theorem diag_cmd_dispatch_return (H : headers) (w : world) (ptr : List Nat) (k : Nat)
    (hkey : diag_cmd_key H.DIAG_CMD_SUBSYS_DISPATCH ptr = some k)
    (hv : ∀ dc ∈ w.diag_cmds, dc.peripheral < w.peripherals.length) :
    (∃ ps', diag_cmd_dispatch_loop H ptr k w.diag_cmds w.peripherals 0
        = some (ps', ((match_count k w.diag_cmds : Nat) : Int))) ∧
      (diag_cmd_dispatch H w ptr).map Prod.snd
        = some (if match_count k w.diag_cmds = 0 then -ENOENT else 0) := by
  obtain ⟨ps', hd, hloop, -, -⟩ := diag_cmd_dispatch_spec H w ptr k hkey hv
  exact ⟨⟨ps', hloop⟩, by rw [hd]; rfl⟩

theorem diag_cmd_dispatch_return_witness :
    diag_cmd_key sample_headers.DIAG_CMD_SUBSYS_DISPATCH [0x7C] = some 0xFFFF007C ∧
      (∀ dc ∈ sample_world.diag_cmds, dc.peripheral < sample_world.peripherals.length) ∧
      (diag_cmd_dispatch sample_headers sample_world [0x7C]).map Prod.snd
        = some (if match_count 0xFFFF007C sample_world.diag_cmds = 0 then -ENOENT else 0) :=
  ⟨by decide, by decide,
    (diag_cmd_dispatch_return sample_headers sample_world [0x7C] 0xFFFF007C
      (by decide) (by decide)).2⟩

/-- C10: forwarding policy per matched route.  For every routing table (whose routes point
to existing peripherals) and every message with routing key `k`, the data queue of every
peripheral after `diag_cmd_dispatch` is its old queue followed by one buffer per matching
route of that peripheral, where the buffer is the message bytes unmodified if the
peripheral has the feature bit `DIAG_FEATURE_APPS_HDLC_ENCODE` set, and is exactly the
output of `hdlc_encode` on the message otherwise. -/
theorem diag_cmd_dispatch_forwarding (H : headers) (w : world) (ptr : List Nat) (k : Nat)
    (hkey : diag_cmd_key H.DIAG_CMD_SUBSYS_DISPATCH ptr = some k)
    (hv : ∀ dc ∈ w.diag_cmds, dc.peripheral < w.peripherals.length) :
    ∃ w' ret, diag_cmd_dispatch H w ptr = some (w', ret) ∧
      ∀ (i : Nat) (p : peripheral), w.peripherals[i]? = some p →
        w'.peripherals[i]? = some
          { p with
            dataq := (p.dataq ++ List.replicate (owned_count k w.diag_cmds i)
              (if p.features &&& H.DIAG_FEATURE_APPS_HDLC_ENCODE ≠ 0 then ptr
               else (hdlc_encode H.crc_ccitt_byte ptr).1)) } := by
  obtain ⟨ps', hd, -, -, hps⟩ := diag_cmd_dispatch_spec H w ptr k hkey hv
  refine ⟨_, _, hd, ?_⟩
  intro i p hp
  have hi := hps i
  rw [hp] at hi
  simp only [hi, Option.map_some', peripheral.deliver, forwarded, peripheral.self_framing,
    decide_eq_true_eq]

theorem diag_cmd_dispatch_forwarding_witness :
    diag_cmd_key sample_headers_zero.DIAG_CMD_SUBSYS_DISPATCH [0, 0, 0xA0, 0]
        = some 0x000000A0 ∧
      (∀ dc ∈ sample_world.diag_cmds, dc.peripheral < sample_world.peripherals.length) ∧
      ∃ w' ret, diag_cmd_dispatch sample_headers_zero sample_world [0, 0, 0xA0, 0]
          = some (w', ret) ∧
        (w'.peripherals.map fun p => p.dataq)
          = [[(hdlc_encode sample_headers_zero.crc_ccitt_byte [0, 0, 0xA0, 0]).1],
             [[9], [0, 0, 0xA0, 0]], [[7]]] := by
  obtain ⟨w', ret, h, -⟩ := diag_cmd_dispatch_forwarding sample_headers_zero sample_world
    [0, 0, 0xA0, 0] 0x000000A0 (by decide) (by decide)
  refine ⟨by decide, by decide, w', ret, h, ?_⟩
  have e : diag_cmd_dispatch sample_headers_zero sample_world [0, 0, 0xA0, 0]
      = some (w', ret) := h
  have e2 : (diag_cmd_dispatch sample_headers_zero sample_world [0, 0, 0xA0, 0]).map
      (fun r => r.1.peripherals.map fun p => p.dataq)
      = some [[(hdlc_encode sample_headers_zero.crc_ccitt_byte [0, 0, 0xA0, 0]).1],
          [[9], [0, 0, 0xA0, 0]], [[7]]] := by decide
  rw [e] at e2
  simpa using e2

/-! ## Lemmas on devnodes and peripherals -/

theorem devnode_get_eq_none (devs : List devnode) (p : String) :
    devnode_get devs p = none ↔ p ∉ devs.map devnode.devnode := by
  induction devs with
  | nil => simp [devnode_get]
  | cons node rest ih =>
    by_cases h : node.devnode = p
    · simp [devnode_get, h]
    · have h' : ¬ p = node.devnode := fun e => h e.symm
      simp [devnode_get, h, h', ih]

theorem devnode_add_paths_nodup (devs : List devnode) (d n r : String)
    (h : (devs.map devnode.devnode).Nodup) :
    ((devnode_add devs d n r).map devnode.devnode).Nodup := by
  unfold devnode_add
  cases hg : devnode_get devs d with
  | some node => simpa using h
  | none =>
    have hnot := (devnode_get_eq_none devs d).1 hg
    simp only [list_add, List.map_append, List.map_cons, List.map_nil]
    rw [List.nodup_append]
    refine ⟨h, by simp, ?_⟩
    intro a ha hb
    simp only [List.mem_singleton] at hb
    exact hnot (hb ▸ ha)

theorem devnode_remove_paths_nodup (devs : List devnode) (d : String)
    (h : (devs.map devnode.devnode).Nodup) :
    ((devnode_remove devs d).map devnode.devnode).Nodup := by
  unfold devnode_remove
  cases hg : devnode_get devs d with
  | none => simpa using h
  | some node =>
    exact List.Nodup.sublist ((List.erase_sublist node devs).map _) h

theorem devnode_run_paths_nodup (ops : List devnode_op) :
    ∀ devs : List devnode, (devs.map devnode.devnode).Nodup →
      ((devnode_run ops devs).map devnode.devnode).Nodup := by
  induction ops with
  | nil => intro devs h; simpa [devnode_run] using h
  | cons op ops ih =>
    intro devs h
    cases op with
    | add d n r => exact ih _ (devnode_add_paths_nodup devs d n r h)
    | remove d => exact ih _ (devnode_remove_paths_nodup devs d h)

theorem peripheral_find_iff (ps : List peripheral) (name : String) :
    peripheral_find ps name = true ↔ name ∈ ps.map peripheral.name := by
  induction ps with
  | nil => simp [peripheral_find]
  | cons p rest ih =>
    by_cases h : p.name = name
    · simp [peripheral_find, h]
    · have h' : ¬ name = p.name := fun e => h e.symm
      simp [peripheral_find, h, h', ih]

theorem peripheral_create_present (st : periph_state) (name : String)
    (h : name ∈ st.peripherals.map peripheral.name) : peripheral_create st name = st := by
  simp [peripheral_create, (peripheral_find_iff _ _).2 h]

theorem peripheral_create_absent (st : periph_state) (name : String)
    (h : name ∉ st.peripherals.map peripheral.name) :
    peripheral_create st name =
      { st with
        peripherals := st.peripherals ++ [⟨name, 0, [], [], -1, -1, -1⟩]
        timers := st.timers ++ [(st.peripherals.length, 1000)] } := by
  have hf : peripheral_find st.peripherals name = false := by
    cases hb : peripheral_find st.peripherals name
    · rfl
    · exact absurd ((peripheral_find_iff _ _).1 hb) h
  simp [peripheral_create, hf, list_add]

/-- The registry after a sequence of `peripheral_create` calls from a state with distinct
names and one timer per record. -/
theorem peripheral_create_fold (names : List String) :
    ∀ st : periph_state, (st.peripherals.map peripheral.name).Nodup →
      st.timers.length = st.peripherals.length →
      ((names.foldl peripheral_create st).peripherals.map peripheral.name).Nodup ∧
      (names.foldl peripheral_create st).timers.length
        = (names.foldl peripheral_create st).peripherals.length ∧
      ∀ n, n ∈ (names.foldl peripheral_create st).peripherals.map peripheral.name ↔
        n ∈ st.peripherals.map peripheral.name ∨ n ∈ names := by
  induction names with
  | nil => intro st h ht; simpa using ⟨h, ht⟩
  | cons name names ih =>
    intro st h ht
    rw [List.foldl_cons]
    by_cases hin : name ∈ st.peripherals.map peripheral.name
    · rw [peripheral_create_present st name hin]
      obtain ⟨h1, h2, h3⟩ := ih st h ht
      refine ⟨h1, h2, ?_⟩
      intro n
      rw [h3 n]
      constructor
      · rintro (e | e)
        · exact Or.inl e
        · exact Or.inr (List.mem_cons_of_mem _ e)
      · rintro (e | e)
        · exact Or.inl e
        · rcases List.mem_cons.1 e with rfl | e
          · exact Or.inl hin
          · exact Or.inr e
    · rw [peripheral_create_absent st name hin]
      have hnod : ((st.peripherals ++ [(⟨name, 0, [], [], -1, -1, -1⟩ : peripheral)]).map
          peripheral.name).Nodup := by
        simp only [List.map_append, List.map_cons, List.map_nil]
        rw [List.nodup_append]
        refine ⟨h, by simp, ?_⟩
        intro a ha hb
        simp only [List.mem_singleton] at hb
        exact hin (hb ▸ ha)
      obtain ⟨h1, h2, h3⟩ := ih
        { st with
          peripherals := st.peripherals ++ [⟨name, 0, [], [], -1, -1, -1⟩]
          timers := st.timers ++ [(st.peripherals.length, 1000)] } hnod (by simp [ht])
      refine ⟨h1, h2, ?_⟩
      intro n
      rw [h3 n]
      simp only [List.map_append, List.map_cons, List.map_nil, List.mem_append,
        List.mem_singleton, List.mem_cons]
      tauto

/-! ## Claims on devnodes and peripherals -/

/-- C12: DevNode uniqueness.  When the directory already holds an entry with path `p`,
`devnode_add(p, name, rproc)` with any attributes leaves the directory unchanged, so the
first entry keeps its name and processor and no second entry is added; and every
directory reached from the empty one by calls of `devnode_add` and `devnode_remove` has
pairwise distinct paths. -/
theorem devnode_add_unique (devs : List devnode) (p name rproc : String)
    (ops : List devnode_op) :
    ((∃ n ∈ devs, n.devnode = p) →
      devnode_add devs p name rproc = devs ∧
      devnode_get (devnode_add devs p name rproc) p = devnode_get devs p) ∧
    ((devnode_run ops []).map devnode.devnode).Nodup := by
  refine ⟨?_, devnode_run_paths_nodup ops [] (by simp)⟩
  rintro ⟨n, hn, rfl⟩
  have hne : devnode_get devs n.devnode ≠ none := by
    rw [Ne, devnode_get_eq_none]
    simp only [not_not]
    exact List.mem_map_of_mem _ hn
  have e : devnode_add devs n.devnode name rproc = devs := by
    unfold devnode_add
    cases hg : devnode_get devs n.devnode with
    | none => exact absurd hg hne
    | some node => rfl
  exact ⟨e, by rw [e]⟩

/-- C13: peripheral single-instantiation.  After any sequence of `peripheral_create`
calls from the empty registry, the registry holds exactly one record for every name of
the sequence and no other record, and one scheduled timer per record; a call with a
name already present leaves the state, timers included, unchanged; a call with a new name
adds one record whose data, control and command handles are `-1` and schedules one
timer. -/
theorem peripheral_create_single (names : List String) (st : periph_state)
    (name : String) :
    (((names.foldl peripheral_create periph_state.init).peripherals.map
        peripheral.name).Nodup ∧
      (∀ n, n ∈ (names.foldl peripheral_create periph_state.init).peripherals.map
        peripheral.name ↔ n ∈ names) ∧
      (∀ n ∈ names, ((names.foldl peripheral_create periph_state.init).peripherals.map
        peripheral.name).count n = 1) ∧
      (names.foldl peripheral_create periph_state.init).timers.length
        = (names.foldl peripheral_create periph_state.init).peripherals.length) ∧
    (name ∈ st.peripherals.map peripheral.name → peripheral_create st name = st) ∧
    (name ∉ st.peripherals.map peripheral.name →
      peripheral_create st name =
        { st with
          peripherals := st.peripherals ++ [⟨name, 0, [], [], -1, -1, -1⟩]
          timers := st.timers ++ [(st.peripherals.length, 1000)] }) := by
  obtain ⟨h1, h2, h3⟩ := peripheral_create_fold names periph_state.init
    (by simp [periph_state.init]) (by simp [periph_state.init])
  have hmem : ∀ n, n ∈ (names.foldl peripheral_create periph_state.init).peripherals.map
      peripheral.name ↔ n ∈ names := by
    intro n
    rw [h3 n]
    simp [periph_state.init]
  refine ⟨⟨h1, hmem, ?_, h2⟩, peripheral_create_present st name,
    peripheral_create_absent st name⟩
  intro n hn
  exact List.count_eq_one_of_mem h1 ((hmem n).2 hn)

/-- C14: abandonment on open failure.  For a peripheral in the created state (all three
handles `-1`): if the control channel resolves under neither `DIAG_CNTL` nor
`APPS_RIVA_CTRL`, then after `peripheral_open` every record is as before, so the data,
control and command handles are `-1`, nothing was added to the watches of the reactor,
and a data descriptor that was opened has been passed to `close`; and if the data lookup
fails, nothing at all changes.  Watches are added only when both the data and the control
lookup succeed, and then they are the write queue and the read callback of the control
and of the data channel. -/
theorem peripheral_open_abandon (sys_open : String → Int) (st : periph_state) (idx : Nat)
    (p : peripheral) (hp : st.peripherals[idx]? = some p)
    (hcreated : p.data_fd = -1 ∧ p.cntl_fd = -1 ∧ p.cmd_fd = -1) :
    (devnode_open_alias sys_open st.devnodes p.name "DIAG_CNTL" "APPS_RIVA_CTRL" < 0 →
      ∃ st', peripheral_open sys_open st idx = some st' ∧
        st'.peripherals = st.peripherals ∧ st'.watches = st.watches ∧
        st'.closed = (if devnode_open_alias sys_open st.devnodes p.name "DIAG"
            "APPS_RIVA_DATA" < 0 then st.closed
          else st.closed ++ [devnode_open_alias sys_open st.devnodes p.name "DIAG"
            "APPS_RIVA_DATA"])) ∧
    (devnode_open_alias sys_open st.devnodes p.name "DIAG" "APPS_RIVA_DATA" < 0 →
      peripheral_open sys_open st idx = some st) ∧
    (∀ st', peripheral_open sys_open st idx = some st' → st'.watches ≠ st.watches →
      0 ≤ devnode_open_alias sys_open st.devnodes p.name "DIAG" "APPS_RIVA_DATA" ∧
      0 ≤ devnode_open_alias sys_open st.devnodes p.name "DIAG_CNTL" "APPS_RIVA_CTRL") ∧
    (0 ≤ devnode_open_alias sys_open st.devnodes p.name "DIAG" "APPS_RIVA_DATA" →
      0 ≤ devnode_open_alias sys_open st.devnodes p.name "DIAG_CNTL" "APPS_RIVA_CTRL" →
      ∃ st', peripheral_open sys_open st idx = some st' ∧
        st'.watches = st.watches ++
          [watch.writeq (devnode_open_alias sys_open st.devnodes p.name "DIAG_CNTL"
              "APPS_RIVA_CTRL") idx false,
           watch.writeq (devnode_open_alias sys_open st.devnodes p.name "DIAG"
              "APPS_RIVA_DATA") idx true,
           watch.readfd (devnode_open_alias sys_open st.devnodes p.name "DIAG_CNTL"
              "APPS_RIVA_CTRL") idx false,
           watch.readfd (devnode_open_alias sys_open st.devnodes p.name "DIAG"
              "APPS_RIVA_DATA") idx true]) := by
  obtain ⟨hd, hc, hm⟩ := hcreated
  have hidx : idx < st.peripherals.length := by
    by_contra hcon
    rw [List.getElem?_eq_none (Nat.le_of_not_lt hcon)] at hp
    exact absurd hp (by simp)
  have hself : st.peripherals.set idx p = st.peripherals := by
    apply List.ext_getElem? 
    intro i
    rw [List.getElem?_set]
    by_cases hi : idx = i
    · subst hi
      simp [hidx, hp]
    · simp [hi]
  have hpeq : ({ p with data_fd := -1 } : peripheral) = p := by
    cases p
    simp only [peripheral.mk.injEq, true_and, and_true] at hd ⊢
    exact hd.symm
  generalize hD : devnode_open_alias sys_open st.devnodes p.name "DIAG" "APPS_RIVA_DATA" = D
  generalize hC : devnode_open_alias sys_open st.devnodes p.name "DIAG_CNTL"
    "APPS_RIVA_CTRL" = C
  unfold devnode_open_alias at hD hC
  simp only at hD hC
  unfold peripheral_open
  simp only [hp, hD, hC]
  by_cases hDn : D < 0
  · simp only [if_pos hDn]
    refine ⟨fun _ => ⟨st, rfl, rfl, rfl, rfl⟩,
      fun _ => trivial, ?_, fun h => absurd hDn (by omega)⟩
    intro st' hst hw
    simp only [Option.some.injEq] at hst
    subst hst
    exact absurd rfl hw
  · simp only [if_neg hDn]
    by_cases hCn : C < 0
    · simp only [if_pos hCn]
      refine ⟨fun _ => ⟨_, rfl, ?_, rfl, rfl⟩, fun h => absurd h hDn, ?_,
        fun _ h => absurd hCn (by omega)⟩
      · show st.peripherals.set idx { p with data_fd := -1 } = st.peripherals
        rw [hpeq, hself]
      · intro st' hst hw
        simp only [Option.some.injEq] at hst
        subst hst
        exact absurd rfl hw
    · simp only [if_neg hCn]
      refine ⟨fun h => absurd h hCn, fun h => absurd h hDn, fun _ _ _ => ⟨by omega, by omega⟩,
        fun _ _ => ⟨_, rfl, ?_⟩⟩
      by_cases hM : devnode_open sys_open st.devnodes p.name "DIAG_CMD" ≥ 0 <;> simp [hM]

theorem peripheral_open_abandon_witness :
    sample_periph_state.peripherals[0]? = some ⟨"modem", 0, [], [], -1, -1, -1⟩ ∧
      devnode_open_alias sample_open sample_periph_state.devnodes "modem" "DIAG_CNTL"
        "APPS_RIVA_CTRL" < 0 ∧
      ∃ st', peripheral_open sample_open sample_periph_state 0 = some st' ∧
        st'.peripherals = sample_periph_state.peripherals ∧
        st'.watches = sample_periph_state.watches ∧ st'.closed = [10] := by
  obtain ⟨st', h1, h2, h3, h4⟩ := (peripheral_open_abandon sample_open sample_periph_state 0
    ⟨"modem", 0, [], [], -1, -1, -1⟩ (by decide) (by decide)).1 (by decide)
  exact ⟨by decide, by decide, st', h1, h2, h3, by rw [h4]; decide⟩

/-- C15, as the claim states it, fails: an add event whose channel-name attribute is
present but empty is not dropped; it adds a devnode and creates a peripheral. -/
theorem peripheral_udev_update_empty_name :
    peripheral_udev_update periph_state.init
        (some ⟨"add", some "/dev/rpmsg0", some "", [none, some "modem"]⟩)
      ≠ periph_state.init ∧
    (peripheral_udev_update periph_state.init
        (some ⟨"add", some "/dev/rpmsg0", some "", [none, some "modem"]⟩)).devnodes
      = [⟨"/dev/rpmsg0", "", "modem"⟩] ∧
    (peripheral_udev_update periph_state.init
        (some ⟨"add", some "/dev/rpmsg0", some "", [none, some "modem"]⟩)).peripherals
      = [⟨"modem", 0, [], [], -1, -1, -1⟩] := by
  decide

/-- C15, amended: an add event whose channel-name attribute or processor-name attribute
is missing changes nothing; an add event with a device node and both attributes present,
empty or not, adds the devnode when its path is new and creates the peripheral when its
processor is new. -/
theorem peripheral_udev_update_add (st : periph_state) (dev : udev_device)
    (hadd : dev.action = "add") :
    ((dev.name = none ∨ peripheral_udev_get_remoteproc dev.rpmsg_names = none) →
      peripheral_udev_update st (some dev) = st) ∧
    (∀ path name rproc, dev.devnode = some path → dev.name = some name →
      peripheral_udev_get_remoteproc dev.rpmsg_names = some rproc →
      (peripheral_udev_update st (some dev)).devnodes
        = (if path ∈ st.devnodes.map devnode.devnode then st.devnodes
           else st.devnodes ++ [⟨path, name, rproc⟩]) ∧
      (peripheral_udev_update st (some dev)).peripherals
        = (if rproc ∈ st.peripherals.map peripheral.name then st.peripherals
           else st.peripherals ++ [⟨rproc, 0, [], [], -1, -1, -1⟩])) := by
  constructor
  · intro h
    simp only [peripheral_udev_update]
    cases hdn : dev.devnode with
    | none => rfl
    | some path =>
      simp only [hadd, if_true]
      rcases h with h | h
      · simp [h]
      · rw [h]
        cases dev.name <;> rfl
  · intro path name rproc hpath hname hrproc
    simp only [peripheral_udev_update, hpath, hadd, if_true, hname, hrproc]
    have hdev : devnode_add st.devnodes path name rproc
        = (if path ∈ st.devnodes.map devnode.devnode then st.devnodes
           else st.devnodes ++ [⟨path, name, rproc⟩]) := by
      unfold devnode_add
      cases hg : devnode_get st.devnodes path with
      | none =>
        have := (devnode_get_eq_none _ _).1 hg
        simp [this, list_add]
      | some node =>
        have : path ∈ st.devnodes.map devnode.devnode := by
          by_contra hcon
          rw [(devnode_get_eq_none _ _).2 hcon] at hg
          exact absurd hg (by simp)
        simp [this]
    by_cases hin : rproc ∈ st.peripherals.map peripheral.name
    · rw [peripheral_create_present _ _ (by simpa using hin)]
      simp only [hdev, if_pos hin, and_self]
    · rw [peripheral_create_absent _ _ (by simpa using hin)]
      simp only [hdev, if_neg hin, and_self]

theorem peripheral_udev_update_add_witness :
    ("add" : String) = "add" ∧
      peripheral_udev_update sample_periph_state
          (some ⟨"add", some "/dev/rpmsg9", none, [some "modem"]⟩) = sample_periph_state :=
  ⟨rfl, (peripheral_udev_update_add sample_periph_state
    ⟨"add", some "/dev/rpmsg9", none, [some "modem"]⟩ rfl).1 (Or.inl rfl)⟩

/-! ## Lemmas for the remaining claims on `diag.c` -/

theorem spec_stuffed_byte_length (b : Nat) :
    (b ≠ 0x7D ∧ b ≠ 0x7E → (spec_stuffed_byte b).length = 1) ∧
    ((b = 0x7D ∨ b = 0x7E) → (spec_stuffed_byte b).length = 2) := by
  unfold spec_stuffed_byte
  constructor
  · intro h; simp [h]
  · intro h
    have : ¬ (b ≠ 0x7D ∧ b ≠ 0x7E) := by omega
    simp [this]

theorem spec_stuffed_length (q : List Nat) :
    q.length ≤ (spec_stuffed q).length ∧ (spec_stuffed q).length ≤ 2 * q.length ∧
    ((spec_stuffed q).length = 2 * q.length ↔ ∀ b ∈ q, b = 0x7D ∨ b = 0x7E) := by
  induction q with
  | nil => simp [spec_stuffed]
  | cons b q ih =>
    obtain ⟨h1, h2, h3⟩ := ih
    simp only [spec_stuffed, List.length_append, List.length_cons, List.mem_cons,
      forall_eq_or_imp]
    by_cases hb : b = 0x7D ∨ b = 0x7E
    · have := (spec_stuffed_byte_length b).2 hb
      refine ⟨by omega, by omega, ?_⟩
      rw [← h3]
      constructor
      · intro h; exact ⟨hb, by omega⟩
      · intro h; omega
    · have := (spec_stuffed_byte_length b).1 (by omega)
      refine ⟨by omega, by omega, ?_⟩
      constructor
      · intro h; omega
      · intro h; exact absurd h.1 hb

theorem diag_cmd_dispatch_loop_nomatch (H : headers) (ptr : List Nat) (key : Nat) :
    ∀ (cmds : List diag_cmd) (ps : List peripheral) (handled : Int),
    match_count key cmds = 0 →
    diag_cmd_dispatch_loop H ptr key cmds ps handled = some (ps, handled) := by
  intro cmds
  induction cmds with
  | nil => intro ps handled _; rfl
  | cons dc rest ih =>
    intro ps handled h0
    have hcov : dc.covers key = false := by
      cases h : dc.covers key
      · rfl
      · simp [match_count, List.filter_cons, h] at h0
    have hrest : match_count key rest = 0 := by
      simpa [match_count, List.filter_cons, hcov] using h0
    have hc : key < dc.first ∨ key > dc.last := by
      by_contra hcon
      rw [(covers_iff dc key).2 hcon] at hcov
      exact absurd hcov (by simp)
    rw [diag_cmd_dispatch_loop, if_pos hc]
    exact ih ps handled hrest

theorem diag_cmd_dispatch_nomatch (H : headers) (w : world) (ptr : List Nat) (k : Nat)
    (hkey : diag_cmd_key H.DIAG_CMD_SUBSYS_DISPATCH ptr = some k)
    (h0 : match_count k w.diag_cmds = 0) :
    diag_cmd_dispatch H w ptr = some (w, -ENOENT) := by
  unfold diag_cmd_dispatch
  simp [hkey, diag_cmd_dispatch_loop_nomatch H ptr k _ _ _ h0]

theorem read_bytes_spec (mem : List Nat) (ptr len : Nat) (m : List Nat)
    (h : read_bytes mem ptr len = some m) :
    m.length = len ∧ ptr + len ≤ mem.length ∧ ∀ i, i < len → mem[ptr + i]? = m[i]? := by
  unfold read_bytes at h
  split at h
  · rename_i hle
    simp only [Option.some.injEq] at h
    subst h
    refine ⟨by simp; omega, hle, ?_⟩
    intro i hi
    rw [List.getElem?_take_of_lt hi, List.getElem?_drop]
  · simp at h

theorem lt_length_of_getElem? (m : List Nat) (i x : Nat) (h : m[i]? = some x) :
    i < m.length := by
  by_contra hcon
  rw [List.getElem?_eq_none (Nat.le_of_not_lt hcon)] at h
  exact absurd h (by simp)

/-- Where the key read from the message alone is defined, the key expression on the memory
has the same value and reads inside the message only. -/
theorem diag_cmd_key_at_of_key (opcode : Nat) (mem : List Nat) (ptr len : Nat)
    (m : List Nat) (k : Nat) (hm : read_bytes mem ptr len = some m)
    (hk : diag_cmd_key opcode m = some k) :
    ∃ reads, diag_cmd_key_at opcode mem ptr = some (k, reads) ∧ ∀ i ∈ reads, i < len := by
  obtain ⟨hlen, -, hget⟩ := read_bytes_spec mem ptr len m hm
  unfold diag_cmd_key at hk
  cases h0 : m[0]? with
  | none => simp [h0] at hk
  | some p0 =>
    have l0 : 0 < len := hlen ▸ lt_length_of_getElem? m 0 p0 h0
    have g0 : mem[ptr + 0]? = some p0 := by rw [hget 0 l0, h0]
    simp only [h0, Option.bind_eq_bind, Option.some_bind] at hk
    by_cases hop : p0 = opcode
    · simp only [if_pos hop] at hk
      cases h1 : m[1]? with
      | none => simp [h1] at hk
      | some p1 =>
        cases h3 : m[3]? with
        | none => simp [h1, h3] at hk
        | some p3 =>
          cases h2 : m[2]? with
          | none => simp [h1, h3, h2] at hk
          | some p2 =>
            have l3 : 3 < len := hlen ▸ lt_length_of_getElem? m 3 p3 h3
            have g1 : mem[ptr + 1]? = some p1 := by rw [hget 1 (by omega), h1]
            have g3 : mem[ptr + 3]? = some p3 := by rw [hget 3 l3, h3]
            have g2 : mem[ptr + 2]? = some p2 := by rw [hget 2 (by omega), h2]
            simp only [h1, h3, h2, Option.some_bind, Option.pure_def, Option.some.injEq] at hk
            refine ⟨[0, 1, 3, 2], ?_, ?_⟩
            · unfold diag_cmd_key_at
              simp only [g0, g1, g3, g2, Option.bind_eq_bind, Option.some_bind, if_pos hop,
                Option.pure_def, hk]
            · intro i hi
              simp only [List.mem_cons, List.mem_singleton, List.not_mem_nil, or_false] at hi
              omega
    · simp only [if_neg hop, Option.pure_def, Option.some.injEq] at hk
      refine ⟨[0], ?_, ?_⟩
      · unfold diag_cmd_key_at
        simp only [g0, Option.bind_eq_bind, Option.some_bind, if_neg hop, Option.pure_def, hk]
      · intro i hi
        simp only [List.mem_singleton] at hi
        omega

/-- Where the key read from the message alone is defined, the dispatch on the memory is
the dispatch on the message. -/
theorem diag_cmd_dispatch_at_eq (H : headers) (w : world) (mem : List Nat) (ptr len : Nat)
    (m : List Nat) (k : Nat) (hm : read_bytes mem ptr len = some m)
    (hk : diag_cmd_key H.DIAG_CMD_SUBSYS_DISPATCH m = some k) :
    diag_cmd_dispatch_at H w mem ptr len = diag_cmd_dispatch H w m := by
  obtain ⟨reads, hat, -⟩ := diag_cmd_key_at_of_key _ mem ptr len m k hm hk
  unfold diag_cmd_dispatch_at diag_cmd_dispatch
  simp only [hm, hat, hk, Option.bind_eq_bind, Option.some_bind]

theorem diag_sock_recv_at_eq (H : headers) (client : Nat) (w : world) (mem : List Nat)
    (ptr len : Nat) (m : List Nat) (k : Nat) (hm : read_bytes mem ptr len = some m)
    (hk : diag_cmd_key H.DIAG_CMD_SUBSYS_DISPATCH m = some k) :
    diag_sock_recv_at H client w mem ptr len = diag_sock_recv_msg H client w m := by
  unfold diag_sock_recv_at diag_sock_recv_msg
  rw [diag_cmd_dispatch_at_eq H w mem ptr len m k hm hk]
  cases hd : diag_cmd_dispatch H w m with
  | none => rfl
  | some r =>
    obtain ⟨w1, ret⟩ := r
    simp only [Option.bind_eq_bind, Option.some_bind, hm]

/-! ## Claims on receiving, sizes and bounds -/

/-- C11: NAK synthesis.  For every decoded client message `m` with routing key `k` and
every client of `diag_clients`: when no registered route contains `k` (in particular
with an empty routing table), handling `m` in `diag_sock_recv` adds exactly one buffer,
the output of `hdlc_encode` on `0x13` followed by `m`, to the output queue of that client
and changes nothing else, so no peripheral queue; when at least one route (of an existing
peripheral) contains `k`, the clients are left as they were.  The body of the loop of
`diag_sock_recv`, run on a memory that holds `m`, is this handling of `m`. -/
theorem diag_sock_recv_nak (H : headers) (w : world) (client : Nat) (c : diag_client)
    (m : List Nat) (k : Nat)
    (hkey : diag_cmd_key H.DIAG_CMD_SUBSYS_DISPATCH m = some k)
    (hc : w.diag_clients[client]? = some c) :
    (match_count k w.diag_cmds = 0 →
      diag_sock_recv_msg H client w m = some
        { w with
          diag_clients := w.diag_clients.set client
            { c with outq := (c.outq ++ [(hdlc_encode H.crc_ccitt_byte (0x13 :: m)).1]) } }) ∧
    (match_count k w.diag_cmds ≠ 0 →
      (∀ dc ∈ w.diag_cmds, dc.peripheral < w.peripherals.length) →
      ∃ w', diag_sock_recv_msg H client w m = some w' ∧
        w'.diag_clients = w.diag_clients) ∧
    (∀ (mem : List Nat) (msg : Nat), read_bytes mem msg m.length = some m →
      diag_sock_recv_at H client w mem msg m.length = diag_sock_recv_msg H client w m) := by
  refine ⟨?_, ?_, fun mem msg hm => diag_sock_recv_at_eq H client w mem msg m.length m k hm hkey⟩
  · intro h0
    unfold diag_sock_recv_msg
    rw [diag_cmd_dispatch_nomatch H w m k hkey h0]
    have hneg : -ENOENT < 0 := by decide
    simp only [Option.bind_eq_bind, Option.some_bind, if_pos hneg]
    unfold diag_rsp_bad_command
    simp only [hc, hdlc_enqueue_eq]
  · intro hne hv
    obtain ⟨ps', hd, -, -, -⟩ := diag_cmd_dispatch_spec H w m k hkey hv
    refine ⟨{ w with peripherals := ps' }, ?_, rfl⟩
    unfold diag_sock_recv_msg
    rw [hd]
    simp [hne]

theorem diag_sock_recv_nak_witness :
    diag_cmd_key sample_headers.DIAG_CMD_SUBSYS_DISPATCH [0x7C] = some 0xFFFF007C ∧
      (⟨[], [⟨"QXDM", 3, []⟩], []⟩ : world).diag_clients[0]? = some ⟨"QXDM", 3, []⟩ ∧
      diag_sock_recv sample_headers 0 ⟨[], [⟨"QXDM", 3, []⟩], []⟩
          (hdlc_encode sample_headers.crc_ccitt_byte [0x7C]).1 4 = some
        (⟨[], [⟨"QXDM", 3, [(hdlc_encode sample_headers.crc_ccitt_byte [0x13, 0x7C]).1]⟩], []⟩,
          0) ∧
      diag_sock_recv_msg sample_headers 0 ⟨[], [⟨"QXDM", 3, []⟩], []⟩ [0x7C] = some
        ⟨[], [⟨"QXDM", 3, [(hdlc_encode sample_headers.crc_ccitt_byte [0x13, 0x7C]).1]⟩], []⟩ :=
  ⟨by decide, by decide, by decide,
    (diag_sock_recv_nak sample_headers ⟨[], [⟨"QXDM", 3, []⟩], []⟩ 0 ⟨"QXDM", 3, []⟩ [0x7C]
      0xFFFF007C (by decide) (by decide)).1 (by decide)⟩

/-- C16, at the failing inputs: for the empty frame `[0x7E]`, for the second of two
back-to-back delimiters and for a frame with one byte before its delimiter, the length
`hdlc_decode_one` returns is `2 ^ 64 - 2`, `2 ^ 64 - 2` and `2 ^ 64 - 1`, while one byte,
one byte and two bytes were consumed and the memory holds one, two and two bytes. -/
theorem hdlc_decode_short_frame_length :
    (hdlc_decode_one [0x7E] 0 1).ret = some (0, 18446744073709551614) ∧
      (hdlc_decode_one [0x7E] 0 1).consumed 0 = 1 ∧
      (hdlc_decode_one [0x7E] 0 1).read = none ∧
      (hdlc_decode_one [0x7E, 0x7E] 1 1).ret = some (1, 18446744073709551614) ∧
      (hdlc_decode_one [0x7E, 0x7E] 1 1).consumed 1 = 1 ∧
      (hdlc_decode_one [0x41, 0x7E] 0 2).ret = some (0, 18446744073709551615) ∧
      (hdlc_decode_one [0x41, 0x7E] 0 2).consumed 0 = 2 := by
  decide

/-- C18: output size bound of `hdlc_encode`.  For every payload of length `n` the number
of bytes written is at least `n + 3` and at most `(n + 2) * 2 + 1`, the size of the
allocated buffer (also as computed in `size_t` when that does not wrap), and the reported
length is the number of bytes written; the upper bound is attained exactly when every
payload byte and both CRC bytes are `0x7D` or `0x7E`. -/
theorem hdlc_encode_size (crc_ccitt_byte : Nat → Nat → Nat) (p : List Nat) :
    p.length + 3 ≤ (hdlc_encode crc_ccitt_byte p).1.length ∧
    (hdlc_encode crc_ccitt_byte p).1.length ≤ (p.length + 2) * 2 + 1 ∧
    ((p.length + 2) * 2 + 1 < 2 ^ 64 →
      (hdlc_encode crc_ccitt_byte p).1.length
        ≤ to_size_t (((p.length : Int) + 2) * 2 + 1)) ∧
    (hdlc_encode crc_ccitt_byte p).2 = (hdlc_encode crc_ccitt_byte p).1.length ∧
    ((hdlc_encode crc_ccitt_byte p).1.length = (p.length + 2) * 2 + 1 ↔
      (∀ b ∈ p, b = 0x7D ∨ b = 0x7E) ∧
      (spec_crc_lo (spec_crc crc_ccitt_byte p) = 0x7D ∨
        spec_crc_lo (spec_crc crc_ccitt_byte p) = 0x7E) ∧
      (spec_crc_hi (spec_crc crc_ccitt_byte p) = 0x7D ∨
        spec_crc_hi (spec_crc crc_ccitt_byte p) = 0x7E)) := by
  rw [hdlc_encode_eq, spec_frame_eq, spec_frame_with_eq]
  obtain ⟨h1, h2, h3⟩ := spec_stuffed_length (p ++ [spec_crc_lo (spec_crc crc_ccitt_byte p),
    spec_crc_hi (spec_crc crc_ccitt_byte p)])
  simp only [List.length_append, List.length_cons, List.length_nil] at h1 h2 h3 ⊢
  refine ⟨by omega, by omega, ?_, trivial, ?_⟩
  · intro hfit
    unfold to_size_t
    norm_num at hfit ⊢
    omega
  · have e : (spec_stuffed (p ++ [spec_crc_lo (spec_crc crc_ccitt_byte p),
        spec_crc_hi (spec_crc crc_ccitt_byte p)])).length + (0 + 1) = (p.length + 2) * 2 + 1 ↔
        (spec_stuffed (p ++ [spec_crc_lo (spec_crc crc_ccitt_byte p),
        spec_crc_hi (spec_crc crc_ccitt_byte p)])).length = 2 * (p.length + (0 + 1 + 1)) := by
      omega
    rw [e, h3]
    simp only [List.mem_append, List.mem_cons, List.not_mem_nil, or_false]
    constructor
    · intro h
      exact ⟨fun b hb => h b (Or.inl hb), h _ (Or.inr (Or.inl rfl)),
        h _ (Or.inr (Or.inr rfl))⟩
    · rintro ⟨hp, hlo, hhi⟩ b (hb | hb | hb)
      · exact hp b hb
      · rw [hb]; exact hlo
      · rw [hb]; exact hhi

/-- C19: unguarded header read.  `diag_cmd_dispatch` derives the key from the memory at
`ptr` without consulting `len`.  For every message in a buffer, of length less than 4 and
with the subsystem-dispatch opcode as first byte: the key read with indices that return
no value at or beyond the message length is undefined; the key expression of the program
reads the indices 0, 1, 3, 2, among them an index in 1..3 at or beyond the message
length, and its value is built from the bytes that follow the message in the buffer; and
when these bytes lie in the buffer the key is defined and the dispatch goes ahead with it.
For every message of length at least 4, and for every non-empty message with another first
byte, all indices read are below the message length and the two keys agree. -/
theorem diag_cmd_key_unguarded (H : headers) (w : world) (mem : List Nat) (ptr len : Nat)
    (m : List Nat) (hm : read_bytes mem ptr len = some m) :
    (len < 4 → m[0]? = some H.DIAG_CMD_SUBSYS_DISPATCH →
      diag_cmd_key H.DIAG_CMD_SUBSYS_DISPATCH m = none ∧
      (∀ k reads, diag_cmd_key_at H.DIAG_CMD_SUBSYS_DISPATCH mem ptr = some (k, reads) →
        reads = [0, 1, 3, 2] ∧ (∃ i ∈ reads, 1 ≤ i ∧ i ≤ 3 ∧ len ≤ i) ∧
        k = (H.DIAG_CMD_SUBSYS_DISPATCH <<< 24 ||| mem.getD (ptr + 1) 0 <<< 16
              ||| mem.getD (ptr + 3) 0 <<< 8 ||| mem.getD (ptr + 2) 0) % 4294967296) ∧
      (ptr + 3 < mem.length →
        (∃ k, diag_cmd_key_at H.DIAG_CMD_SUBSYS_DISPATCH mem ptr = some (k, [0, 1, 3, 2])) ∧
        ((∀ dc ∈ w.diag_cmds, dc.peripheral < w.peripherals.length) →
          ∃ w' ret, diag_cmd_dispatch_at H w mem ptr len = some (w', ret)))) ∧
    (4 ≤ len →
      ∃ k reads, diag_cmd_key_at H.DIAG_CMD_SUBSYS_DISPATCH mem ptr = some (k, reads) ∧
        (∀ i ∈ reads, i < len) ∧ diag_cmd_key H.DIAG_CMD_SUBSYS_DISPATCH m = some k) ∧
    (1 ≤ len → m[0]? ≠ some H.DIAG_CMD_SUBSYS_DISPATCH →
      ∃ k reads, diag_cmd_key_at H.DIAG_CMD_SUBSYS_DISPATCH mem ptr = some (k, reads) ∧
        (∀ i ∈ reads, i < len) ∧ diag_cmd_key H.DIAG_CMD_SUBSYS_DISPATCH m = some k) := by
  obtain ⟨hlen, hfit, hget⟩ := read_bytes_spec mem ptr len m hm
  refine ⟨?_, ?_, ?_⟩
  · intro hlt h0
    have l0 : 0 < len := hlen ▸ lt_length_of_getElem? m 0 _ h0
    have g0 : mem[ptr + 0]? = some H.DIAG_CMD_SUBSYS_DISPATCH := by rw [hget 0 l0, h0]
    refine ⟨?_, ?_, ?_⟩
    · unfold diag_cmd_key
      have h3 : m[3]? = none := List.getElem?_eq_none (by omega)
      simp only [h0, h3, Option.bind_eq_bind, Option.some_bind, if_true]
      cases m[1]? <;> simp
    · intro k reads hat
      unfold diag_cmd_key_at at hat
      simp only [g0, Option.bind_eq_bind, Option.some_bind, if_true] at hat
      cases h1 : mem[ptr + 1]? with
      | none => simp [h1] at hat
      | some p1 =>
        cases h3 : mem[ptr + 3]? with
        | none => simp [h1, h3] at hat
        | some p3 =>
          cases h2 : mem[ptr + 2]? with
          | none => simp [h1, h3, h2] at hat
          | some p2 =>
            simp only [h1, h3, h2, Option.some_bind, Option.pure_def, Option.some.injEq,
              Prod.mk.injEq] at hat
            obtain ⟨hkv, hrd⟩ := hat
            refine ⟨hrd.symm, ⟨3, by rw [← hrd]; simp, by omega, by omega, by omega⟩, ?_⟩
            rw [← hkv]
            simp [List.getD_eq_getElem?_getD, h1, h3, h2]
    · intro hbuf
      have g1 : mem[ptr + 1]? = some mem[ptr + 1] := List.getElem?_eq_getElem (by omega)
      have g3 : mem[ptr + 3]? = some mem[ptr + 3] := List.getElem?_eq_getElem (by omega)
      have g2 : mem[ptr + 2]? = some mem[ptr + 2] := List.getElem?_eq_getElem (by omega)
      have hat : diag_cmd_key_at H.DIAG_CMD_SUBSYS_DISPATCH mem ptr
          = some ((H.DIAG_CMD_SUBSYS_DISPATCH <<< 24 ||| mem[ptr + 1] <<< 16
              ||| mem[ptr + 3] <<< 8 ||| mem[ptr + 2]) % 4294967296, [0, 1, 3, 2]) := by
        unfold diag_cmd_key_at
        simp only [g0, g1, g3, g2, Option.bind_eq_bind, Option.some_bind, if_true,
          Option.pure_def]
      refine ⟨⟨_, hat⟩, ?_⟩
      intro hv
      obtain ⟨ps', hloop, -, -⟩ := diag_cmd_dispatch_loop_spec H m
        ((H.DIAG_CMD_SUBSYS_DISPATCH <<< 24 ||| mem[ptr + 1] <<< 16
          ||| mem[ptr + 3] <<< 8 ||| mem[ptr + 2]) % 4294967296) w.diag_cmds w.peripherals 0 hv
      unfold diag_cmd_dispatch_at
      simp only [hm, hat, hloop, Option.bind_eq_bind, Option.some_bind, Option.pure_def]
      exact ⟨_, _, rfl⟩
  · intro h4
    have hk : ∃ k, diag_cmd_key H.DIAG_CMD_SUBSYS_DISPATCH m = some k := by
      have hl : 4 ≤ m.length := by omega
      match m, hl with
      | b0 :: b1 :: b2 :: b3 :: rest, _ =>
        by_cases h : b0 = H.DIAG_CMD_SUBSYS_DISPATCH <;> simp [diag_cmd_key, h]
    obtain ⟨k, hk⟩ := hk
    obtain ⟨reads, hat, hrd⟩ := diag_cmd_key_at_of_key _ mem ptr len m k hm hk
    exact ⟨k, reads, hat, hrd, hk⟩
  · intro h1 h0
    have hk : ∃ k, diag_cmd_key H.DIAG_CMD_SUBSYS_DISPATCH m = some k := by
      have hl : 1 ≤ m.length := by omega
      match m, hl, h0 with
      | b0 :: rest, _, h0 =>
        have h : b0 ≠ H.DIAG_CMD_SUBSYS_DISPATCH := by simpa using h0
        simp [diag_cmd_key, h]
    obtain ⟨k, hk⟩ := hk
    obtain ⟨reads, hat, hrd⟩ := diag_cmd_key_at_of_key _ mem ptr len m k hm hk
    exact ⟨k, reads, hat, hrd, hk⟩

theorem diag_cmd_key_unguarded_witness :
    read_bytes [75, 175, 12, 126] 0 1 = some [75] ∧
      diag_cmd_key sample_headers.DIAG_CMD_SUBSYS_DISPATCH [75] = none ∧
      diag_cmd_key_at sample_headers.DIAG_CMD_SUBSYS_DISPATCH [75, 175, 12, 126] 0
        = some (0x4BAF7E0C, [0, 1, 3, 2]) ∧
      (diag_cmd_dispatch_at sample_headers sample_world_subsys [75, 175, 12, 126] 0 1).map
        Prod.snd = some 0 ∧
      ((diag_sock_recv sample_headers 0 sample_world_subsys [75, 175, 12, 126] 4).map
        fun r => (r.1.peripherals.map fun p => p.dataq, r.2))
        = some ([[(hdlc_encode sample_headers.crc_ccitt_byte [75]).1]], 0) :=
  ⟨by decide,
    ((diag_cmd_key_unguarded sample_headers sample_world_subsys [75, 175, 12, 126] 0 1 [75]
      (by decide)).1 (by decide) (by decide)).1,
    by decide, by decide, by decide⟩

/-! ## Lemmas on repeated decoding -/

theorem hdlc_decode_scan_length : ∀ (n : Nat) (mem : List Nat) (s d esc : Nat),
    (hdlc_decode_scan n mem s d esc).1.length = mem.length := by
  intro n
  induction n with
  | zero => intro mem s d esc; rfl
  | succ n ih =>
    intro mem s d esc
    rw [hdlc_decode_scan]
    split
    · rfl
    · split
      · exact ih _ _ _ _
      · rw [ih]
        simp

theorem hdlc_decode_one_length (mem : List Nat) (buf len : Nat) :
    (hdlc_decode_one mem buf len).mem.length = mem.length := by
  have h := hdlc_decode_scan_length len mem buf buf 0
  unfold hdlc_decode_one
  rcases hs : hdlc_decode_scan len mem buf buf 0 with ⟨m, o⟩
  rw [hs] at h
  cases o with
  | none => simpa using h
  | some r => simpa using h

/-- The scan works inside the part of the memory it was given: what lies below and above
is carried along unchanged, and offsets shift with the part. -/
theorem hdlc_decode_scan_local : ∀ (n : Nat) (A M T : List Nat) (s d esc : Nat),
    d ≤ s → s + n ≤ M.length →
    hdlc_decode_scan n (A ++ M ++ T) (A.length + s) (A.length + d) esc
      = (A ++ (hdlc_decode_scan n M s d esc).1 ++ T,
         (hdlc_decode_scan n M s d esc).2.map fun r => (A.length + r.1, A.length + r.2)) := by
  intro n
  induction n with
  | zero => intro A M T s d esc _ _; rfl
  | succ n ih =>
    intro A M T s d esc hds hlen
    have hs : s < M.length := by omega
    have hget : (A ++ M ++ T).getD (A.length + s) 0 = M.getD s 0 := by
      rw [List.append_assoc, List.getD_append_right _ _ _ _ (by omega)]
      simp only [Nat.add_sub_cancel_left]
      rw [List.getD_append _ _ _ _ hs]
    rw [hdlc_decode_scan, hdlc_decode_scan]
    simp only [hget]
    by_cases h7e : M.getD s 0 = 0x7e
    · simp only [if_pos h7e, Option.map_some', Nat.add_assoc]
    · simp only [if_neg h7e]
      by_cases h7d : M.getD s 0 = 0x7d
      · simp only [if_pos h7d]
        exact ih A M T (s + 1) d 0x20 (by omega) (by omega)
      · simp only [if_neg h7d]
        have hset : (A ++ M ++ T).set (A.length + d) (M.getD s 0 ^^^ esc)
            = A ++ M.set d (M.getD s 0 ^^^ esc) ++ T := by
          rw [List.append_assoc, List.set_append_right _ _ (by omega)]
          simp only [Nat.add_sub_cancel_left]
          rw [List.set_append_left _ _ (by omega), List.append_assoc]
        rw [hset]
        have := ih A (M.set d (M.getD s 0 ^^^ esc)) T (s + 1) (d + 1) 0 (by omega)
          (by simp; omega)
        simpa [Nat.add_assoc] using this

/-- A scan that ended at a delimiter ends the same way with more input behind it. -/
theorem hdlc_decode_scan_mono : ∀ (n : Nat) (mem : List Nat) (s d esc : Nat)
    (mem' : List Nat) (r : Nat × Nat),
    hdlc_decode_scan n mem s d esc = (mem', some r) →
    ∀ k, hdlc_decode_scan (n + k) mem s d esc = (mem', some r) := by
  intro n
  induction n with
  | zero =>
    intro mem s d esc mem' r h
    simp [hdlc_decode_scan] at h
  | succ n ih =>
    intro mem s d esc mem' r h k
    have e : n + 1 + k = (n + k) + 1 := by omega
    rw [e, hdlc_decode_scan]
    rw [hdlc_decode_scan] at h
    by_cases h7e : mem.getD s 0 = 0x7e
    · simp only [if_pos h7e] at h ⊢
      exact h
    · simp only [if_neg h7e] at h ⊢
      by_cases h7d : mem.getD s 0 = 0x7d
      · simp only [if_pos h7d] at h ⊢
        exact ih _ _ _ _ _ _ h k
      · simp only [if_neg h7d] at h ⊢
        exact ih _ _ _ _ _ _ h k

/-- A call on a buffer that holds a whole frame at the cursor does what the call on the
frame alone does, at the offset of the frame, and leaves the rest of the memory alone. -/
theorem hdlc_decode_one_frame (A T seg : List Nat) (len : Nat) (hseg : 0x7e ∉ seg)
    (hlen : seg.length + 1 ≤ len) (h64 : len < 2 ^ 64) :
    hdlc_decode_one (A ++ (seg ++ [0x7e]) ++ T) A.length len =
      { mem := A ++ (hdlc_decode_one (seg ++ [0x7e]) 0 (seg.length + 1)).mem ++ T
        buf := A.length + (seg.length + 1)
        len := len - (seg.length + 1)
        ret := (hdlc_decode_one (seg ++ [0x7e]) 0 (seg.length + 1)).ret.map
          fun m => (A.length + m.1, m.2) } := by
  obtain ⟨G', -, hscan⟩ := hdlc_decode_scan_delim seg hseg (seg.length + 1) [] [] [] 0
    (by omega)
  simp only [List.nil_append, List.length_nil, Nat.add_zero, Nat.zero_add] at hscan
  have hloc := hdlc_decode_scan_local (seg.length + 1) A (seg ++ [0x7e]) T 0 0 0
    (Nat.le_refl _) (by simp)
  rw [hscan] at hloc
  simp only [Nat.add_zero, Option.map_some'] at hloc
  have hmono := hdlc_decode_scan_mono _ _ _ _ _ _ _ hloc (len - (seg.length + 1))
  have e : seg.length + 1 + (len - (seg.length + 1)) = len := by omega
  rw [e] at hmono
  have hsz := to_size_t_sub len (seg.length + 1) hlen h64
  unfold hdlc_decode_one
  simp only [hmono, hscan, Option.map_some']
  congr 1
  · rw [← hsz]
    congr 1
    push_cast
    omega
  · congr 2
    congr 1
    push_cast
    omega

/-- A successful call leaves a strictly smaller remaining length. -/
theorem hdlc_decode_one_len_lt (mem : List Nat) (buf len : Nat) (h64 : len < 2 ^ 64)
    (h : (hdlc_decode_one mem buf len).ret ≠ none) :
    (hdlc_decode_one mem buf len).len < len := by
  have hin : 0x7E ∈ window mem buf len := by
    by_contra hcon
    exact h (hdlc_decode_one_none mem buf len hcon).1
  obtain ⟨s, t, hw, hs, -⟩ := split_first 0x7E _ hin
  obtain ⟨G', -, hdec⟩ := hdlc_decode_one_delim mem buf len s t hw hs
  have hle : s.length + 1 ≤ len := by
    have h1 := congrArg List.length hw
    have h2 : (window mem buf len).length ≤ len := by simp [window, List.length_take]
    simp at h1
    omega
  have hsz := to_size_t_sub len (s.length + 1) hle h64
  push_cast at hsz
  rw [hdec]
  simp only [hsz]
  omega

/-- The repeated decoding of a chunk ends: a bound above the remaining length is never
exhausted. -/
theorem decode_calls_terminates : ∀ (fuel : Nat) (mem : List Nat) (ptr len : Nat),
    len < fuel → len < 2 ^ 64 → ∃ rs, decode_calls fuel mem ptr len = some rs := by
  intro fuel
  induction fuel with
  | zero => intro mem ptr len h; omega
  | succ fuel ih =>
    intro mem ptr len hf h64
    rw [decode_calls]
    cases hr : (hdlc_decode_one mem ptr len).ret with
    | none => exact ⟨[], rfl⟩
    | some m =>
      have hlt := hdlc_decode_one_len_lt mem ptr len h64 (by rw [hr]; simp)
      obtain ⟨rs, hrs⟩ := ih (hdlc_decode_one mem ptr len).mem (hdlc_decode_one mem ptr len).buf
        (hdlc_decode_one mem ptr len).len (by omega) (by omega)
      exact ⟨hdlc_decode_one mem ptr len :: rs, by simp [hrs]⟩

theorem decode_calls_mono : ∀ (fuel : Nat) (mem : List Nat) (ptr len : Nat)
    (rs : List decode_result), decode_calls fuel mem ptr len = some rs →
    ∀ k, decode_calls (fuel + k) mem ptr len = some rs := by
  intro fuel
  induction fuel with
  | zero => intro mem ptr len rs h; simp [decode_calls] at h
  | succ fuel ih =>
    intro mem ptr len rs h k
    have e : fuel + 1 + k = (fuel + k) + 1 := by omega
    rw [e, decode_calls]
    rw [decode_calls] at h
    cases hr : (hdlc_decode_one mem ptr len).ret with
    | none => simpa [hr] using h
    | some m =>
      simp only [hr, Option.map_eq_some'] at h ⊢
      obtain ⟨rs', hrs', e'⟩ := h
      exact ⟨rs', ih _ _ _ _ hrs' k, e'⟩

theorem decode_calls_step (fuel : Nat) (mem : List Nat) (ptr len : Nat) (m : Nat × Nat)
    (h : (hdlc_decode_one mem ptr len).ret = some m) :
    decode_calls (fuel + 1) mem ptr len
      = (decode_calls fuel (hdlc_decode_one mem ptr len).mem (hdlc_decode_one mem ptr len).buf
          (hdlc_decode_one mem ptr len).len).map fun rs => hdlc_decode_one mem ptr len :: rs := by
  rw [decode_calls]
  simp only [h]

theorem decode_calls_stop (fuel : Nat) (mem : List Nat) (ptr len : Nat)
    (h : (hdlc_decode_one mem ptr len).ret = none) :
    decode_calls (fuel + 1) mem ptr len = some [] := by
  rw [decode_calls]
  simp only [h]

theorem frames_from_spec : ∀ (l acc : List Nat), 0x7E ∉ acc →
    ∃ rest, acc ++ l = (frames_from acc l).flatten ++ rest ∧ 0x7E ∉ rest ∧
      ∀ f ∈ frames_from acc l, ∃ seg, f = seg ++ [0x7E] ∧ 0x7E ∉ seg := by
  intro l
  induction l with
  | nil =>
    intro acc hacc
    exact ⟨acc, by simp [frames_from], hacc, by simp [frames_from]⟩
  | cons b r ih =>
    intro acc hacc
    by_cases hb : b = 0x7E
    · obtain ⟨rest, e, hrest, hf⟩ := ih [] (by simp)
      refine ⟨rest, ?_, hrest, ?_⟩
      · simp only [frames_from, if_pos hb, List.flatten_cons, List.append_assoc]
        rw [← e]
        simp
      · intro f hfm
        simp only [frames_from, if_pos hb, List.mem_cons] at hfm
        rcases hfm with rfl | hfm
        · exact ⟨acc, by rw [hb], hacc⟩
        · exact hf f hfm
    · have hacc' : 0x7E ∉ acc ++ [b] := by
        simp only [List.mem_append, List.mem_singleton, not_or]
        exact ⟨hacc, fun e => hb e.symm⟩
      obtain ⟨rest, e, hrest, hf⟩ := ih (acc ++ [b]) hacc'
      refine ⟨rest, ?_, hrest, ?_⟩
      · simp only [frames_from, if_neg hb]
        rw [← e]
        simp
      · intro f hfm
        simp only [frames_from, if_neg hb] at hfm
        exact hf f hfm

theorem frames_from_length : ∀ (l acc : List Nat),
    (frames_from acc l).length = l.count 0x7E := by
  intro l
  induction l with
  | nil => intro acc; rfl
  | cons b r ih =>
    intro acc
    by_cases hb : b = 0x7E
    · simp [frames_from, hb, ih]
    · simp [frames_from, hb, ih, List.count_cons]

theorem window_mid (A w T : List Nat) : window (A ++ w ++ T) A.length w.length = w := by
  simp [window]

/-- The repeated decoding of a chunk made of the frames `F` and a rest without delimiter:
one call per frame, each as the call on its frame alone. -/
theorem decode_calls_frames : ∀ (F : List (List Nat)),
    (∀ f ∈ F, ∃ seg, f = seg ++ [0x7E] ∧ 0x7E ∉ seg) →
    ∀ (rest A T : List Nat) (fuel : Nat), 0x7E ∉ rest →
    (F.flatten ++ rest).length < fuel → (F.flatten ++ rest).length < 2 ^ 64 →
    ∃ rs, decode_calls fuel (A ++ (F.flatten ++ rest) ++ T) A.length
        (F.flatten ++ rest).length = some rs ∧
      rs.length = F.length ∧
      ∀ k (hk : k < F.length), ∃ r A', rs[k]? = some r ∧
        A'.length = A.length + (F.take k).flatten.length ∧
        r.mem = A' ++ (hdlc_decode_one F[k] 0 F[k].length).mem
          ++ ((F.drop (k + 1)).flatten ++ rest ++ T) ∧
        r.ret = (hdlc_decode_one F[k] 0 F[k].length).ret.map
          (fun m => (A.length + (F.take k).flatten.length + m.1, m.2)) ∧
        r.buf = A.length + (F.take (k + 1)).flatten.length ∧
        r.len = (F.flatten ++ rest).length - (F.take (k + 1)).flatten.length := by
  intro F
  induction F with
  | nil =>
    intro _ rest A T fuel hrest hfuel _
    obtain ⟨fuel, rfl⟩ : ∃ m, fuel = m + 1 := ⟨fuel - 1, by omega⟩
    refine ⟨[], ?_, rfl, fun k hk => absurd hk (by simp)⟩
    apply decode_calls_stop
    apply (hdlc_decode_one_none _ _ _ _).1
    simp only [List.flatten_nil, List.nil_append]
    rw [window_mid]
    exact hrest
  | cons f F ih =>
    intro hF rest A T fuel hrest hfuel h64
    obtain ⟨fuel, rfl⟩ : ∃ m, fuel = m + 1 := ⟨fuel - 1, by omega⟩
    obtain ⟨seg, rfl, hseg⟩ := hF f (List.mem_cons_self _ _)
    have hF' : ∀ f ∈ F, ∃ seg, f = seg ++ [0x7E] ∧ 0x7E ∉ seg :=
      fun f hf => hF f (List.mem_cons_of_mem _ hf)
    have hL : (((seg ++ [0x7E]) :: F).flatten ++ rest).length
        = (seg.length + 1) + (F.flatten ++ rest).length := by
      simp
      omega
    have hmem : A ++ (((seg ++ [0x7E]) :: F).flatten ++ rest) ++ T
        = A ++ (seg ++ [0x7e]) ++ ((F.flatten ++ rest) ++ T) := by simp
    have hfr := hdlc_decode_one_frame A ((F.flatten ++ rest) ++ T) seg
      (((seg ++ [0x7E]) :: F).flatten ++ rest).length hseg (by omega) h64
    rw [← hmem] at hfr
    have hflen : (seg ++ [0x7E]).length = seg.length + 1 := by simp
    generalize hS : hdlc_decode_one (seg ++ [0x7e]) 0 (seg.length + 1) = S at hfr
    have hSlen : S.mem.length = seg.length + 1 := by
      rw [← hS, hdlc_decode_one_length]
      simp
    obtain ⟨x, hx⟩ : ∃ x, S.ret = some x := by
      obtain ⟨G', -, hdec⟩ := hdlc_decode_one_delim (seg ++ [0x7e]) 0 (seg.length + 1) seg []
        (by rw [← hflen, window_all]) hseg
      rw [hS] at hdec
      exact ⟨_, by rw [hdec]⟩
    obtain ⟨rs, hrs, hrl, hrk⟩ := ih hF' rest (A ++ S.mem) T fuel hrest (by omega) (by omega)
    have hstep := decode_calls_step fuel (A ++ (((seg ++ [0x7E]) :: F).flatten ++ rest) ++ T)
      A.length (((seg ++ [0x7E]) :: F).flatten ++ rest).length (A.length + x.1, x.2)
      (by rw [hfr, hx]; rfl)
    have hnext : decode_calls fuel
        (hdlc_decode_one (A ++ (((seg ++ [0x7E]) :: F).flatten ++ rest) ++ T) A.length
          (((seg ++ [0x7E]) :: F).flatten ++ rest).length).mem
        (hdlc_decode_one (A ++ (((seg ++ [0x7E]) :: F).flatten ++ rest) ++ T) A.length
          (((seg ++ [0x7E]) :: F).flatten ++ rest).length).buf
        (hdlc_decode_one (A ++ (((seg ++ [0x7E]) :: F).flatten ++ rest) ++ T) A.length
          (((seg ++ [0x7E]) :: F).flatten ++ rest).length).len = some rs := by
      rw [hfr]
      simp only
      have e1 : A ++ S.mem ++ (F.flatten ++ rest ++ T)
          = A ++ S.mem ++ (F.flatten ++ rest) ++ T := by simp
      have e2 : A.length + (seg.length + 1) = (A ++ S.mem).length := by simp [hSlen]
      have e3 : (((seg ++ [0x7E]) :: F).flatten ++ rest).length - (seg.length + 1)
          = (F.flatten ++ rest).length := by omega
      rw [e1, e2, e3]
      exact hrs
    rw [hnext, Option.map_some'] at hstep
    refine ⟨_, hstep, by simp [hrl], ?_⟩
    intro k hk
    cases k with
    | zero =>
      refine ⟨hdlc_decode_one (A ++ (((seg ++ [0x7E]) :: F).flatten ++ rest) ++ T) A.length
        (((seg ++ [0x7E]) :: F).flatten ++ rest).length, A, by simp, by simp, ?_, ?_, ?_, ?_⟩
      · rw [hfr]
        simp [hflen, hS]
      · rw [hfr]
        simp [hflen, hS]
      · rw [hfr]
        simp
      · rw [hfr]
        simp
    | succ k =>
      have hk' : k < F.length := by simpa using hk
      obtain ⟨r, A', h1, h2, h3, h4, h5, h6⟩ := hrk k hk'
      refine ⟨r, A', by simpa using h1, ?_, ?_, ?_, ?_, ?_⟩
      · rw [h2]
        simp [hSlen]
        omega
      · rw [h3]
        simp
      · rw [h4]
        simp only [List.take_succ_cons, List.flatten_cons, List.length_append,
          List.getElem_cons_succ, hflen]
        congr 1
        funext m
        simp [hSlen]
        omega
      · rw [h5]
        simp [hSlen]
        omega
      · rw [h6]
        simp
        omega

/-! ## Lemmas on the receive loops -/

theorem read_eq_of_ret (r : decode_result) (msg msglen : Nat) (h : r.ret = some (msg, msglen)) :
    r.read = read_bytes r.mem msg msglen := by
  simp [decode_result.read, h]

/-- The loop of `diag_sock_recv` makes the successive calls of `hdlc_decode_one` and
handles the result of each in turn. -/
theorem diag_sock_recv_loop_eq (H : headers) (client : Nat) :
    ∀ (fuel : Nat) (w : world) (mem : List Nat) (ptr len : Nat),
    diag_sock_recv_loop H client fuel w mem ptr len
      = (decode_calls fuel mem ptr len).bind
          fun rs => rs.foldlM (diag_sock_recv_step H client) w := by
  intro fuel
  induction fuel with
  | zero => intro w mem ptr len; rfl
  | succ fuel ih =>
    intro w mem ptr len
    rw [diag_sock_recv_loop]
    cases hr : (hdlc_decode_one mem ptr len).ret with
    | none =>
      rw [decode_calls_stop fuel mem ptr len hr]
      simp
    | some m =>
      obtain ⟨msg, msglen⟩ := m
      rw [decode_calls_step fuel mem ptr len _ hr]
      have hstep : diag_sock_recv_step H client w (hdlc_decode_one mem ptr len)
          = diag_sock_recv_at H client w (hdlc_decode_one mem ptr len).mem msg msglen := by
        simp [diag_sock_recv_step, hr]
      simp only
      cases hat : diag_sock_recv_at H client w (hdlc_decode_one mem ptr len).mem msg msglen with
      | none =>
        rw [hat] at hstep
        cases hcalls : decode_calls fuel (hdlc_decode_one mem ptr len).mem
            (hdlc_decode_one mem ptr len).buf (hdlc_decode_one mem ptr len).len with
        | none => rfl
        | some rs =>
          simp only [Option.map_some', Option.some_bind, List.foldlM_cons, hstep]
          rfl
      | some w1 =>
        rw [hat] at hstep
        simp only [Option.bind_eq_bind, Option.some_bind]
        rw [ih]
        cases hcalls : decode_calls fuel (hdlc_decode_one mem ptr len).mem
            (hdlc_decode_one mem ptr len).buf (hdlc_decode_one mem ptr len).len with
        | none => rfl
        | some rs =>
          simp only [Option.map_some', Option.some_bind, List.foldlM_cons, hstep]
          rfl

theorem diag_data_recv_step_peripherals (w w1 : world) (r : decode_result)
    (h : diag_data_recv_step w r = some w1) : w1.peripherals = w.peripherals := by
  unfold diag_data_recv_step at h
  cases hr : r.ret with
  | none => simp [hr] at h
  | some m =>
    simp only [hr, Option.map_eq_some'] at h
    obtain ⟨cl, -, rfl⟩ := h
    rfl

/-- The non-self-framing branch of the loop of `diag_data_recv` makes the successive calls
of `hdlc_decode_one` and pushes the result of each in turn. -/
theorem diag_data_recv_loop_eq (H : headers) (peripheral : Nat) (p : Diag.peripheral)
    (hsf : ¬ (p.features &&& H.DIAG_FEATURE_APPS_HDLC_ENCODE ≠ 0)) :
    ∀ (fuel : Nat) (w : world) (mem : List Nat) (ptr len : Nat),
    w.peripherals[peripheral]? = some p →
    diag_data_recv_loop H peripheral fuel w mem ptr len
      = (decode_calls fuel mem ptr len).bind fun rs => rs.foldlM diag_data_recv_step w := by
  intro fuel
  induction fuel with
  | zero => intro w mem ptr len _; rfl
  | succ fuel ih =>
    intro w mem ptr len hp
    rw [diag_data_recv_loop]
    simp only [hp, if_neg hsf]
    cases hr : (hdlc_decode_one mem ptr len).ret with
    | none =>
      rw [decode_calls_stop fuel mem ptr len hr]
      simp
    | some m =>
      obtain ⟨msg, msglen⟩ := m
      rw [decode_calls_step fuel mem ptr len _ hr]
      have hstep : diag_data_recv_step w (hdlc_decode_one mem ptr len)
          = (diag_data_recv_push (hdlc_decode_one mem ptr len).mem msg msglen
              w.diag_clients).map fun clients => { w with diag_clients := clients } := by
        simp [diag_data_recv_step, hr]
      simp only
      cases hpush : diag_data_recv_push (hdlc_decode_one mem ptr len).mem msg msglen
          w.diag_clients with
      | none =>
        rw [hpush] at hstep
        cases hcalls : decode_calls fuel (hdlc_decode_one mem ptr len).mem
            (hdlc_decode_one mem ptr len).buf (hdlc_decode_one mem ptr len).len with
        | none => rfl
        | some rs =>
          simp only [Option.map_some', Option.some_bind, List.foldlM_cons, hstep]
          rfl
      | some clients =>
        rw [hpush] at hstep
        simp only [Option.bind_eq_bind, Option.some_bind]
        rw [ih _ _ _ _ (by simpa using hp)]
        cases hcalls : decode_calls fuel (hdlc_decode_one mem ptr len).mem
            (hdlc_decode_one mem ptr len).buf (hdlc_decode_one mem ptr len).len with
        | none => rfl
        | some rs =>
          simp only [Option.map_some', Option.some_bind, List.foldlM_cons, hstep]
          rfl

theorem diag_data_recv_push_eq (mem : List Nat) (msg msglen : Nat) (m : List Nat)
    (h : read_bytes mem msg msglen = some m) (clients : List diag_client) :
    diag_data_recv_push mem msg msglen clients
      = some (clients.map fun c => { c with outq := c.outq ++ [m] }) := by
  induction clients with
  | nil => rfl
  | cons c rest ih =>
    rw [diag_data_recv_push]
    simp [h, ih, queue_push, list_add]

theorem broadcast_nil (w : world) : w.broadcast [] = w := by
  cases w
  simp [world.broadcast]

theorem broadcast_cons (w : world) (m : List Nat) (ms : List (List Nat)) :
    (w.broadcast [m]).broadcast ms = w.broadcast (m :: ms) := by
  simp [world.broadcast, List.map_map, Function.comp_def]

theorem diag_data_recv_step_eq (w : world) (r : decode_result) (m : List Nat)
    (h : r.read = some m) : diag_data_recv_step w r = some (w.broadcast [m]) := by
  unfold decode_result.read at h
  unfold diag_data_recv_step
  cases hr : r.ret with
  | none => simp [hr] at h
  | some x =>
    obtain ⟨msg, msglen⟩ := x
    simp only [hr] at h ⊢
    rw [diag_data_recv_push_eq _ _ _ _ h]
    rfl

theorem diag_data_recv_fold (rs : List decode_result) :
    ∀ (w : world) (msgs : List (List Nat)), decode_messages rs = some msgs →
    rs.foldlM diag_data_recv_step w = some (w.broadcast msgs) := by
  induction rs with
  | nil =>
    intro w msgs h
    simp only [decode_messages, Option.some.injEq] at h
    subst h
    simp [broadcast_nil]
  | cons r rs ih =>
    intro w msgs h
    rw [decode_messages] at h
    cases hr : r.read with
    | none => simp [hr] at h
    | some m =>
      cases hms : decode_messages rs with
      | none => simp [hr, hms] at h
      | some ms =>
        simp only [hr, hms, Option.some.injEq] at h
        subst h
        rw [List.foldlM_cons, diag_data_recv_step_eq w r m hr]
        simp only [Option.bind_eq_bind, Option.some_bind]
        rw [ih _ ms hms, broadcast_cons]

theorem window_split (mem : List Nat) (buf len : Nat) (hfit : buf + len ≤ mem.length) :
    mem = mem.take buf ++ window mem buf len ++ mem.drop (buf + len) ∧
      (mem.take buf).length = buf ∧ (window mem buf len).length = len := by
  refine ⟨?_, by simp; omega, by simp [window]; omega⟩
  unfold window
  rw [List.append_assoc, ← List.drop_drop, List.take_append_drop, List.take_append_drop]

/-- The repeated decoding of the window of a buffer: one call per delimiter-terminated
segment, each as the call on its segment alone, with the unread bytes left as they were. -/
theorem decode_calls_window (mem : List Nat) (buf len : Nat) (h64 : len < 2 ^ 64)
    (hfit : buf + len ≤ mem.length) :
    ∃ rs, decode_calls (len + 1) mem buf len = some rs ∧
      rs.length = (frames (window mem buf len)).length ∧
      ∀ k (hk : k < (frames (window mem buf len)).length), ∃ r A', rs[k]? = some r ∧
        A'.length = buf + frame_offset (window mem buf len) k ∧
        r.mem = A' ++ (hdlc_decode_one (frames (window mem buf len))[k] 0
            (frames (window mem buf len))[k].length).mem
          ++ mem.drop (buf + frame_offset (window mem buf len) (k + 1)) ∧
        r.ret = (hdlc_decode_one (frames (window mem buf len))[k] 0
            (frames (window mem buf len))[k].length).ret.map
          (fun m => (buf + frame_offset (window mem buf len) k + m.1, m.2)) ∧
        r.buf = buf + frame_offset (window mem buf len) (k + 1) ∧
        r.len = len - frame_offset (window mem buf len) (k + 1) := by
  obtain ⟨hmem, hA, hW⟩ := window_split mem buf len hfit
  generalize window mem buf len = W at hmem hW ⊢
  generalize hAdef : mem.take buf = A at hmem hA
  generalize hTdef : mem.drop (buf + len) = T at hmem
  obtain ⟨rest, hsplit, hrest, hF⟩ := frames_from_spec W [] (by simp)
  rw [List.nil_append] at hsplit
  have hlen : ((frames W).flatten ++ rest).length = len := by
    unfold frames
    rw [← hsplit, hW]
  obtain ⟨rs, hrs, hrl, hrk⟩ := decode_calls_frames (frames W) hF rest A T (len + 1) hrest
    (by omega) (by omega)
  rw [hlen, hA] at hrs
  have hsplit' : W = (frames W).flatten ++ rest := hsplit
  rw [← hsplit', ← hmem] at hrs
  refine ⟨rs, hrs, hrl, ?_⟩
  intro k hk
  obtain ⟨r, A', h1, h2, h3, h4, h5, h6⟩ := hrk k hk
  have hdrop : mem.drop (buf + frame_offset W (k + 1))
      = ((frames W).drop (k + 1)).flatten ++ rest ++ T := by
    have e : mem = (A ++ ((frames W).take (k + 1)).flatten)
        ++ (((frames W).drop (k + 1)).flatten ++ rest ++ T) := by
      have hF2 : (frames W).flatten = ((frames W).take (k + 1)).flatten
          ++ ((frames W).drop (k + 1)).flatten := by
        rw [← List.flatten_append, List.take_append_drop]
      conv_lhs => rw [hmem, hsplit', hF2]
      simp
    conv_lhs => rw [e]
    exact List.drop_left' (by simp [hA, frame_offset])
  refine ⟨r, A', h1, by rw [h2, hA]; rfl, by rw [h3, hdrop], by rw [h4, hA]; rfl,
    by rw [h5, hA]; rfl, by rw [h6, hlen]; rfl⟩

theorem diag_data_recv_step_none (w : world) (r : decode_result)
    (hc : w.diag_clients ≠ []) (h : r.read = none) : diag_data_recv_step w r = none := by
  unfold decode_result.read at h
  unfold diag_data_recv_step
  cases hr : r.ret with
  | none => rfl
  | some x =>
    obtain ⟨msg, msglen⟩ := x
    simp only [hr] at h ⊢
    cases hcl : w.diag_clients with
    | nil => exact absurd hcl hc
    | cons c rest =>
      rw [diag_data_recv_push]
      simp [h]

/-- With at least one client, pushing the results of a sequence of calls is defined exactly
when every returned message can be read, and then adds these messages to every queue. -/
theorem diag_data_recv_fold_exact (rs : List decode_result) :
    ∀ (w : world), w.diag_clients ≠ [] →
    rs.foldlM diag_data_recv_step w = (decode_messages rs).map w.broadcast := by
  induction rs with
  | nil =>
    intro w _
    simp [decode_messages, broadcast_nil]
  | cons r rs ih =>
    intro w hc
    rw [List.foldlM_cons, decode_messages]
    cases hr : r.read with
    | none =>
      rw [diag_data_recv_step_none w r hc hr]
      rfl
    | some m =>
      rw [diag_data_recv_step_eq w r m hr]
      simp only [Option.bind_eq_bind, Option.some_bind]
      rw [ih (w.broadcast [m]) (by simpa [world.broadcast] using hc)]
      cases hms : decode_messages rs with
      | none => rfl
      | some ms => simp [broadcast_cons]

/-! ## Claims on the receive loops -/

/-- C17: repeated decoding of one read chunk.  For every chunk of `len` bytes at the
cursor of a buffer: every successful `hdlc_decode_one` strictly decreases the remaining
length, so the repeated decoding ends, whatever bound above `len` is put on the number of
calls; it makes exactly one successful call per `0x7E` byte of the chunk; the `k`-th call
returns what `hdlc_decode_one` returns on the `k`-th delimiter-terminated segment of the
chunk taken alone, at the offset of that segment, leaves in the place of the segment the
memory the call on the segment alone leaves, and leaves every byte behind the segment as
it was; the bytes after the last `0x7E` give no result.  The loop of `diag_sock_recv` and
the non-self-framing branch of the loop of `diag_data_recv` make exactly these calls and
handle each result in turn. -/
theorem decode_chunk_segments (mem : List Nat) (buf len : Nat) (h64 : len < 2 ^ 64)
    (hfit : buf + len ≤ mem.length) :
    (∃ rs, (∀ fuel, len < fuel → decode_calls fuel mem buf len = some rs) ∧
      rs.length = (window mem buf len).count 0x7E ∧
      rs.length = (frames (window mem buf len)).length ∧
      ∀ k (hk : k < (frames (window mem buf len)).length), ∃ r A', rs[k]? = some r ∧
        A'.length = buf + frame_offset (window mem buf len) k ∧
        r.mem = A' ++ (hdlc_decode_one (frames (window mem buf len))[k] 0
            (frames (window mem buf len))[k].length).mem
          ++ mem.drop (buf + frame_offset (window mem buf len) (k + 1)) ∧
        r.ret = (hdlc_decode_one (frames (window mem buf len))[k] 0
            (frames (window mem buf len))[k].length).ret.map
          (fun m => (buf + frame_offset (window mem buf len) k + m.1, m.2)) ∧
        r.buf = buf + frame_offset (window mem buf len) (k + 1) ∧
        r.len = len - frame_offset (window mem buf len) (k + 1)) ∧
    (∀ (mem1 : List Nat) (buf1 len1 : Nat), len1 < 2 ^ 64 →
      (hdlc_decode_one mem1 buf1 len1).ret ≠ none →
      (hdlc_decode_one mem1 buf1 len1).len < len1) ∧
    (∀ (H : headers) (client : Nat) (w : world) (fuel : Nat),
      diag_sock_recv_loop H client fuel w mem buf len
        = (decode_calls fuel mem buf len).bind
            fun rs => rs.foldlM (diag_sock_recv_step H client) w) ∧
    (∀ (H : headers) (peripheral : Nat) (p : Diag.peripheral) (w : world) (fuel : Nat),
      w.peripherals[peripheral]? = some p →
      ¬ (p.features &&& H.DIAG_FEATURE_APPS_HDLC_ENCODE ≠ 0) →
      diag_data_recv_loop H peripheral fuel w mem buf len
        = (decode_calls fuel mem buf len).bind
            fun rs => rs.foldlM diag_data_recv_step w) := by
  obtain ⟨rs, hrs, hrl, hrk⟩ := decode_calls_window mem buf len h64 hfit
  refine ⟨⟨rs, ?_, ?_, hrl, hrk⟩, hdlc_decode_one_len_lt,
    fun H client w fuel => diag_sock_recv_loop_eq H client fuel w mem buf len,
    fun H peripheral p w fuel hp hsf =>
      diag_data_recv_loop_eq H peripheral p hsf fuel w mem buf len hp⟩
  · intro fuel hfuel
    have := decode_calls_mono (len + 1) mem buf len rs hrs (fuel - (len + 1))
    have e : len + 1 + (fuel - (len + 1)) = fuel := by omega
    rwa [e] at this
  · rw [hrl]
    exact frames_from_length _ _

theorem decode_chunk_segments_witness :
    (9 : Nat) < 2 ^ 64 ∧ 0 + 9 ≤ [1, 2, 0x7e, 0x7e, 3, 0x7d, 0x5e, 0x7e, 9].length ∧
      frames (window [1, 2, 0x7e, 0x7e, 3, 0x7d, 0x5e, 0x7e, 9] 0 9)
        = [[1, 2, 0x7e], [0x7e], [3, 0x7d, 0x5e, 0x7e]] ∧
      ((decode_calls 10 [1, 2, 0x7e, 0x7e, 3, 0x7d, 0x5e, 0x7e, 9] 0 9).map
        fun rs => rs.map decode_result.ret)
        = some [some (0, 0), some (3, 18446744073709551614), some (4, 0)] ∧
      ∃ rs, (∀ fuel, 9 < fuel →
          decode_calls fuel [1, 2, 0x7e, 0x7e, 3, 0x7d, 0x5e, 0x7e, 9] 0 9 = some rs) ∧
        rs.length = (window [1, 2, 0x7e, 0x7e, 3, 0x7d, 0x5e, 0x7e, 9] 0 9).count 0x7E := by
  obtain ⟨⟨rs, h1, h2, -⟩, -⟩ := decode_chunk_segments
    [1, 2, 0x7e, 0x7e, 3, 0x7d, 0x5e, 0x7e, 9] 0 9 (by decide) (by decide)
  exact ⟨by decide, by decide, by decide, by decide, rs, h1, h2⟩

/-- C20, at the failing input: for the chunk `[0x7E]` read from a peripheral without the
self-framing bit, with one client registered, the one call of `hdlc_decode_one` returns a
message of length `2 ^ 64 - 2`, which is not a range of the buffer; the round is asked to
copy that many bytes and has no defined result, so no client queue is extended by the
message the call returned. -/
theorem diag_data_recv_short_frame :
    sample_world.peripherals[0]? = some ⟨"modem", 0, [], [], 4, 5, -1⟩ ∧
      (0 : Nat) &&& sample_headers.DIAG_FEATURE_APPS_HDLC_ENCODE = 0 ∧
      sample_world.diag_clients.length = 1 ∧
      ((decode_calls 2 [0x7E] 0 1).map fun rs => rs.map decode_result.ret)
        = some [some (0, 18446744073709551614)] ∧
      (decode_calls 2 [0x7E] 0 1).bind decode_messages = none ∧
      diag_data_recv_chunk sample_headers 0 sample_world [0x7E] 1 = none := by
  refine ⟨by decide, by decide, by decide, by decide, rfl, rfl⟩

/-- One round of `diag_data_recv` where every returned message can be read.  For a chunk
of `n` bytes and every list of clients: if the peripheral has the self-framing feature
bit, the round adds to the output queue of every client the single buffer holding the
whole chunk unmodified; otherwise the repeated decoding of the chunk ends and, when every
message returned by its successive `hdlc_decode_one` calls can be read from the buffer,
the round adds to the output queue of every client the list of these messages, in order,
each as raw decoded bytes; with at least one client the round is defined exactly in that
case.  Nothing else changes, so no peripheral queue. -/
theorem diag_data_recv_broadcast (H : headers) (w : world) (peripheral : Nat)
    (p : Diag.peripheral) (buf : List Nat) (n : Nat)
    (hp : w.peripherals[peripheral]? = some p) (hn : n ≤ buf.length) (h64 : n < 2 ^ 64) :
    (p.features &&& H.DIAG_FEATURE_APPS_HDLC_ENCODE ≠ 0 →
      diag_data_recv_chunk H peripheral w buf n = some (w.broadcast [buf.take n])) ∧
    (¬ (p.features &&& H.DIAG_FEATURE_APPS_HDLC_ENCODE ≠ 0) →
      ∃ rs, decode_calls (n + 1) buf 0 n = some rs ∧
        (∀ msgs, decode_messages rs = some msgs →
          diag_data_recv_chunk H peripheral w buf n = some (w.broadcast msgs)) ∧
        (w.diag_clients ≠ [] →
          diag_data_recv_chunk H peripheral w buf n
            = (decode_messages rs).map w.broadcast)) ∧
    (∀ msgs, (w.broadcast msgs).peripherals = w.peripherals ∧
      (w.broadcast msgs).diag_cmds = w.diag_cmds ∧
      (w.broadcast msgs).diag_clients
        = w.diag_clients.map fun c => { c with outq := c.outq ++ msgs }) := by
  refine ⟨?_, ?_, fun msgs => ⟨rfl, rfl, rfl⟩⟩
  · intro hsf
    unfold diag_data_recv_chunk
    rw [diag_data_recv_loop]
    simp only [hp, if_pos hsf]
    have hread : read_bytes buf 0 n = some (buf.take n) := by
      simp [read_bytes, hn]
    rw [diag_data_recv_push_eq _ _ _ _ hread]
    rfl
  · intro hsf
    obtain ⟨rs, hrs⟩ := decode_calls_terminates (n + 1) buf 0 n (by omega) h64
    have hloop : diag_data_recv_chunk H peripheral w buf n
        = rs.foldlM diag_data_recv_step w := by
      unfold diag_data_recv_chunk
      rw [diag_data_recv_loop_eq H peripheral p hsf (n + 1) w buf 0 n hp, hrs]
      rfl
    refine ⟨rs, hrs, ?_, ?_⟩
    · intro msgs hmsgs
      rw [hloop]
      exact diag_data_recv_fold rs w msgs hmsgs
    · intro hc
      rw [hloop]
      exact diag_data_recv_fold_exact rs w hc

theorem diag_data_recv_broadcast_sample :
    sample_world.peripherals[0]? = some ⟨"modem", 0, [], [], 4, 5, -1⟩ ∧
      10 ≤ [1, 2, 3, 4, 0x7e, 5, 0x7d, 0x5e, 7, 0x7e, 8, 9].length ∧ (10 : Nat) < 2 ^ 64 ∧
      (decode_calls (10 + 1) [1, 2, 3, 4, 0x7e, 5, 0x7d, 0x5e, 7, 0x7e, 8, 9] 0 10).bind
        decode_messages = some [[1, 2], [5]] ∧
      ∃ rs, decode_calls (10 + 1) [1, 2, 3, 4, 0x7e, 5, 0x7d, 0x5e, 7, 0x7e, 8, 9] 0 10
          = some rs ∧
        ∀ msgs, decode_messages rs = some msgs →
          diag_data_recv_chunk sample_headers 0 sample_world
            [1, 2, 3, 4, 0x7e, 5, 0x7d, 0x5e, 7, 0x7e, 8, 9] 10
            = some (sample_world.broadcast msgs) := by
  obtain ⟨rs, h1, h2, -⟩ := (diag_data_recv_broadcast sample_headers sample_world 0
    ⟨"modem", 0, [], [], 4, 5, -1⟩ [1, 2, 3, 4, 0x7e, 5, 0x7d, 0x5e, 7, 0x7e, 8, 9] 10
    (by decide) (by decide) (by decide)).2.1 (by decide)
  exact ⟨by decide, by decide, by decide, by decide, rs, h1, h2⟩

end Diag
